import Mathlib

/-!
# distrobuilder `generators/copy.go`: the copy generator

A shallow embedding of `copy.Run`, `copy.doCopy`, `copy.copyDir` and
`copy.copyFile`, together with the parts of the Go standard library they call
(`path/filepath`, `strings`, `os` file modes), followed by theorems about the
placement rules the generator implements.

Conventions of the embedding

* Go `string` is `String`.  `Clean`, `Join`, `Dir`, `Base` and `Rel` work on
  the character list: they look only for the separator and the dot, single
  bytes that are part of no other character, so that characters and bytes
  give the same result.
* Go `error` is `Option Error` (`none` is `nil`); `(T, error)` is `Except Error T`.
* The operating system is a record `OS σ` of operations over an abstract
  filesystem state `σ`.  Reads get the state; writes return the new state.
* The state threaded through the generator is `World σ`: the filesystem plus a
  log of the calls made (`Event`), which is ghost state used to state which
  functions were invoked with which arguments.
* `filepath.Walk` is taken by its contract.  The operating system gives the
  plan of the walk (`WalkPlan`): the root as `Lstat` finds it, and for a
  directory its listing, read before the walk function is called on it; each
  entry is examined in the filesystem as it is when the walk gets to it, after
  the calls made for the nodes before it.
* `filepath.Match` works on the UTF-8 bytes of pattern and name, as in Go.  Its
  loops run on a counter that starts above the length of the pattern, which is
  more than the number of rounds they can make.
* The placement rules of the specification are written a second time, over
  the operations of the operating system alone (`spec.placeFile`,
  `spec.mirror`, `spec.place`, `spec.placeAll`).  What a function of the
  generator is seen to do (`outcome`: success, filesystem left, calls of
  outside operations) is compared with them.
-/

/-! ## Errors -/

/-- Go `error` values that flow through the generator. -/
inductive Error where
  /-- an error reported by the operating system, by errno -/
  | errno (code : Nat)
  /-- the value `filepath.ErrBadPattern` -/
  | ErrBadPattern
  /-- the result of `errors.New msg` -/
  | New (msg : String)
  /-- the result of `errors.Errorf format args...` -/
  | Errorf (format : String) (args : List String)
  /-- the result of `errors.Wrap cause msg` -/
  | Wrap (cause : Error) (msg : String)
  /-- the result of `errors.Wrapf cause format args...` -/
  | Wrapf (cause : Error) (format : String) (args : List String)
  deriving DecidableEq, Repr

deriving instance DecidableEq for Except

namespace strings

/-- Go `strings.HasSuffix`. -/
def HasSuffix (s suffix : String) : Bool :=
  suffix.data.isSuffixOf s.data

end strings

namespace os

/-- The errno `ENOENT`. -/
def ENOENT : Nat := 2

/-- Go `os.IsNotExist` on the errors of this embedding. -/
def IsNotExist : Option Error → Bool
  | some (Error.errno c) => c == ENOENT
  | _ => false

/-- Go `os.ModeDir`. -/
def ModeDir : Nat := 1 <<< 31
/-- Go `os.ModeSymlink`. -/
def ModeSymlink : Nat := 1 <<< 27
/-- Go `os.ModeDevice`. -/
def ModeDevice : Nat := 1 <<< 26
/-- Go `os.ModeNamedPipe`. -/
def ModeNamedPipe : Nat := 1 <<< 25
/-- Go `os.ModeSocket`. -/
def ModeSocket : Nat := 1 <<< 24
/-- Go `os.ModeCharDevice`. -/
def ModeCharDevice : Nat := 1 <<< 21
/-- Go `os.ModeIrregular`. -/
def ModeIrregular : Nat := 1 <<< 19
/-- Go `os.ModeType`: the mask of the type bits. -/
def ModeType : Nat :=
  ModeDir ||| ModeSymlink ||| ModeNamedPipe ||| ModeSocket ||| ModeDevice |||
    ModeCharDevice ||| ModeIrregular
/-- Go `os.ModePerm`. -/
def ModePerm : Nat := 0o777

end os

/-! ## `path/filepath` on Unix -/

namespace filepath

/-- Go `filepath.Separator` on Unix. -/
def Separator : Char := '/'

/-- Splits a character list at every separator; `"a//b"` gives `a`, the empty
element and `b`. -/
def splitSep : List Char → List (List Char)
  | [] => [[]]
  | c :: cs =>
    match splitSep cs with
    | [] => [[c]]
    | x :: xs => if c = Separator then [] :: x :: xs else (c :: x) :: xs

/-- Joins elements with one separator between neighbours. -/
def joinSep : List (List Char) → List Char
  | [] => []
  | [x] => x
  | x :: y :: ys => x ++ Separator :: joinSep (y :: ys)

/-- The element loop of `filepath.Clean`: `acc` is the output so far, last
element first.  Empty elements and `.` are dropped, `..` removes the last real
element, is dropped at the root and is kept in a leading run of `..` of a path
that is not rooted. -/
def cleanElems (rooted : Bool) : List (List Char) → List (List Char) → List (List Char)
  | [], acc => acc.reverse
  | e :: es, acc =>
    if e = [] ∨ e = ['.'] then cleanElems rooted es acc
    else if e = ['.', '.'] then
      match acc with
      | [] => if rooted then cleanElems rooted es [] else cleanElems rooted es [e]
      | top :: rest =>
        if top = ['.', '.'] then cleanElems rooted es (e :: top :: rest)
        else cleanElems rooted es rest
    else cleanElems rooted es (e :: acc)

/-- Go `filepath.Clean` on character lists. -/
def cleanChars (path : List Char) : List Char :=
  match path with
  | [] => ['.']
  | c :: _ =>
    let rooted := c = Separator
    let out := joinSep (cleanElems rooted (splitSep path) [])
    if rooted then Separator :: out
    else if out = [] then ['.'] else out

/-- Go `filepath.Clean`. -/
def Clean (path : String) : String := ⟨cleanChars path.data⟩

/-- Go `filepath.Join`: the elements from the first non-empty one on are joined
with separators and cleaned; with no non-empty element the result is empty. -/
def Join : List String → String
  | [] => ""
  | e :: es =>
    if e = "" then Join es
    else Clean ⟨joinSep ((e :: es).map String.data)⟩

/-- The prefix of a path up to and including its last separator. -/
def dirPrefix : List Char → List Char
  | [] => []
  | c :: cs =>
    if Separator ∈ cs then c :: dirPrefix cs
    else if c = Separator then [c] else []

/-- Go `filepath.Dir`. -/
def Dir (path : String) : String := ⟨cleanChars (dirPrefix path.data)⟩

/-- Removes the trailing separators of a path. -/
def stripTrailingSep (path : List Char) : List Char :=
  (path.reverse.dropWhile (fun c => c = Separator)).reverse

/-- Go `filepath.Base`. -/
def Base (path : String) : String :=
  if path = "" then "."
  else
    let p := stripTrailingSep path.data
    if p = [] then ⟨[Separator]⟩
    else ⟨(splitSep p).getLastD []⟩

/-- The elements of a cleaned path as `filepath.Rel` scans them: none for the
empty path, one empty element for the root. -/
def relElems (p : List Char) : List (List Char) :=
  if p = [] then [] else if p = [Separator] then [[]] else splitSep p

/-- Drops the longest common prefix of two element lists. -/
def dropCommon : List (List Char) → List (List Char) → List (List Char) × List (List Char)
  | b :: bs, t :: ts => if b = t then dropCommon bs ts else (b :: bs, t :: ts)
  | bs, ts => (bs, ts)

/-- Go `filepath.Rel` on Unix. -/
def Rel (basepath targpath : String) : Except Error String :=
  let base := cleanChars basepath.data
  let targ := cleanChars targpath.data
  if targ = base then .ok "."
  else
    let base := if base = ['.'] then [] else base
    let fail : Except Error String :=
      .error (Error.New ("Rel: can't make " ++ targpath ++ " relative to " ++ basepath))
    if (base.head? == some Separator) != (targ.head? == some Separator) then fail
    else
      match dropCommon (relElems base) (relElems targ) with
      | ([], ts) => .ok ⟨joinSep ts⟩
      | (b :: bs, ts) =>
        if b = ['.', '.'] then fail
        else .ok ⟨joinSep ((b :: bs).map (fun _ => ['.', '.']) ++ ts)⟩

/-! ### UTF-8

Go strings are byte sequences and `filepath.Match` reads them byte by byte,
decoding a character only for `?` and for character classes. -/

/-- The UTF-8 encoding of a character. -/
def utf8 (c : Char) : List Nat :=
  let n := c.val.toNat
  if n < 0x80 then [n]
  else if n < 0x800 then [0xC0 + n / 64, 0x80 + n % 64]
  else if n < 0x10000 then [0xE0 + n / 4096, 0x80 + n / 64 % 64, 0x80 + n % 64]
  else [0xF0 + n / 262144, 0x80 + n / 4096 % 64, 0x80 + n / 64 % 64, 0x80 + n % 64]

/-- The bytes of a list of characters. -/
def bytesOf : List Char → List Nat
  | [] => []
  | c :: cs => utf8 c ++ bytesOf cs

/-- The bytes of a Go string. -/
def bytes (s : String) : List Nat := bytesOf s.data

/-- Go `utf8.RuneError`. -/
def RuneError : Nat := 0xFFFD

/-- Whether a byte is a continuation byte. -/
def isCont (b : Nat) : Bool := 0x80 ≤ b ∧ b ≤ 0xBF

/-- Go `utf8.DecodeRuneInString`: the first character of the bytes and its
width; `(RuneError, 0)` for no bytes and `(RuneError, 1)` for bytes that do not
start with a well-formed character. -/
def DecodeRune : List Nat → Nat × Nat
  | [] => (RuneError, 0)
  | b0 :: rest =>
    if b0 < 0x80 then (b0, 1)
    else if 0xC2 ≤ b0 ∧ b0 ≤ 0xDF then
      match rest with
      | b1 :: _ =>
        if isCont b1 then ((b0 - 0xC0) * 64 + (b1 - 0x80), 2) else (RuneError, 1)
      | [] => (RuneError, 1)
    else if 0xE0 ≤ b0 ∧ b0 ≤ 0xEF then
      match rest with
      | b1 :: b2 :: _ =>
        if (if b0 = 0xE0 then 0xA0 else 0x80) ≤ b1 ∧ b1 ≤ (if b0 = 0xED then 0x9F else 0xBF) ∧
            isCont b2 then
          (((b0 - 0xE0) * 64 + (b1 - 0x80)) * 64 + (b2 - 0x80), 3)
        else (RuneError, 1)
      | _ => (RuneError, 1)
    else if 0xF0 ≤ b0 ∧ b0 ≤ 0xF4 then
      match rest with
      | b1 :: b2 :: b3 :: _ =>
        if (if b0 = 0xF0 then 0x90 else 0x80) ≤ b1 ∧ b1 ≤ (if b0 = 0xF4 then 0x8F else 0xBF) ∧
            isCont b2 ∧ isCont b3 then
          ((((b0 - 0xF0) * 64 + (b1 - 0x80)) * 64 + (b2 - 0x80)) * 64 + (b3 - 0x80), 4)
        else (RuneError, 1)
      | _ => (RuneError, 1)
    else (RuneError, 1)

/-! ### `filepath.Match` -/

/-- The byte `*`. -/
def bStar : Nat := 42
/-- The byte `-`. -/
def bDash : Nat := 45
/-- The byte of the separator. -/
def bSep : Nat := 47
/-- The byte `?`. -/
def bQuery : Nat := 63
/-- The byte `[`. -/
def bOpen : Nat := 91
/-- The byte of the backslash. -/
def bEsc : Nat := 92
/-- The byte `]`. -/
def bClose : Nat := 93
/-- The byte `^`. -/
def bCaret : Nat := 94

/-- Strips the leading stars of a pattern and reports whether there were any. -/
def scanStars : List Nat → Bool × List Nat
  | [] => (false, [])
  | c :: cs => if c = bStar then (true, (scanStars cs).2) else (false, c :: cs)

/-- The scan loop of `scanChunk`: the chunk runs up to the next star outside a
character class; a backslash takes the following byte with it. -/
def scanChunkAux : Bool → List Nat → List Nat × List Nat
  | _, [] => ([], [])
  | inrange, [c] =>
    if c = bStar ∧ ¬ inrange then ([], [c]) else ([c], [])
  | inrange, c :: d :: ds =>
    if c = bEsc then
      let r := scanChunkAux inrange ds
      (c :: d :: r.1, r.2)
    else if c = bOpen then
      let r := scanChunkAux true (d :: ds)
      (c :: r.1, r.2)
    else if c = bClose then
      let r := scanChunkAux false (d :: ds)
      (c :: r.1, r.2)
    else if c = bStar ∧ ¬ inrange then ([], c :: d :: ds)
    else
      let r := scanChunkAux inrange (d :: ds)
      (c :: r.1, r.2)

/-- Go `scanChunk`: the star flag, the chunk and the rest of the pattern. -/
def scanChunk (pattern : List Nat) : Bool × List Nat × List Nat :=
  let s := scanStars pattern
  let r := scanChunkAux false s.2
  (s.1, r.1, r.2)

/-- Go `getEsc`: a possibly escaped character of a character class and the rest
of the chunk, which must not be empty. -/
def getEsc : List Nat → Except Error (Nat × List Nat)
  | [] => .error Error.ErrBadPattern
  | c :: cs =>
    if c = bDash ∨ c = bClose then .error Error.ErrBadPattern
    else if c = bEsc ∧ cs = [] then .error Error.ErrBadPattern
    else
      let chunk := if c = bEsc then cs else c :: cs
      let d := DecodeRune chunk
      let nchunk := chunk.drop d.2
      if (d.1 = RuneError ∧ d.2 = 1) ∨ nchunk = [] then .error Error.ErrBadPattern
      else .ok (d.1, nchunk)

/-- The range loop of a character class in `matchChunk`: returns whether `r`
is in one of the ranges and the chunk after the closing bracket. -/
def parseRanges : Nat → Nat → List Nat → Bool → Nat → Except Error (Bool × List Nat)
  | 0, _, _, _, _ => .error Error.ErrBadPattern
  | fuel + 1, r, chunk, matched, nrange =>
    if chunk.head? = some bClose ∧ 0 < nrange then .ok (matched, chunk.tail)
    else
      match getEsc chunk with
      | .error e => .error e
      | .ok (lo, chunk1) =>
        if chunk1.head? = some bDash then
          match getEsc chunk1.tail with
          | .error e => .error e
          | .ok (hi, chunk2) =>
            parseRanges fuel r chunk2 (matched || (decide (lo ≤ r) && decide (r ≤ hi)))
              (nrange + 1)
        else
          parseRanges fuel r chunk1 (matched || (decide (lo ≤ r) && decide (r ≤ lo)))
            (nrange + 1)

/-- The loop of Go `matchChunk`: `some rest` when the chunk matches a prefix of
`s`, `none` when it does not; after a failure the chunk is still checked for
being well formed. -/
def matchChunkAux : Nat → List Nat → List Nat → Bool → Except Error (Option (List Nat))
  | 0, _, _, _ => .ok none
  | fuel + 1, chunk, s, failed =>
    match chunk with
    | [] => if failed then .ok none else .ok (some s)
    | c :: cs =>
      let failed := failed || s.isEmpty
      if c = bOpen then
        let r : Nat := if failed then 0 else (DecodeRune s).1
        let s1 := if failed then s else s.drop (DecodeRune s).2
        let negated := cs.head? == some bCaret
        let cs1 := if negated then cs.tail else cs
        match parseRanges (cs1.length + 1) r cs1 false 0 with
        | .error e => .error e
        | .ok (m, cs2) => matchChunkAux fuel cs2 s1 (failed || (m == negated))
      else if c = bQuery then
        if failed then matchChunkAux fuel cs s failed
        else matchChunkAux fuel cs (s.drop (DecodeRune s).2) (s.head? == some bSep)
      else if c = bEsc then
        match cs with
        | [] => .error Error.ErrBadPattern
        | c2 :: cs2 =>
          if failed then matchChunkAux fuel cs2 s failed
          else matchChunkAux fuel cs2 s.tail (s.head? != some c2)
      else
        if failed then matchChunkAux fuel cs s failed
        else matchChunkAux fuel cs s.tail (s.head? != some c)

/-- Go `matchChunk`. -/
def matchChunk (chunk s : List Nat) : Except Error (Option (List Nat)) :=
  matchChunkAux (chunk.length + 1) chunk s false

/-- The loop of `Match` that retries a chunk after a star, skipping one more
byte of the name each time but never a separator: `some t` when the chunk
matched and matching goes on with `t`. -/
def starLoop (chunk : List Nat) (last : Bool) : List Nat → Except Error (Option (List Nat))
  | [] => .ok none
  | c :: cs =>
    if c = bSep then .ok none
    else
      match matchChunk chunk cs with
      | .error e => .error e
      | .ok (some t) => if last ∧ t ≠ [] then starLoop chunk last cs else .ok (some t)
      | .ok none => starLoop chunk last cs

/-- The `Pattern:` loop of Go `filepath.Match`. -/
def matchLoop : Nat → List Nat → List Nat → Except Error Bool
  | 0, _, _ => .ok false
  | fuel + 1, pattern, name =>
    if pattern = [] then .ok (name = [])
    else
      let sc := scanChunk pattern
      let star := sc.1
      let chunk := sc.2.1
      let rest := sc.2.2
      if star ∧ chunk = [] then .ok (!(name.contains bSep))
      else
        match matchChunk chunk name with
        | .error e => .error e
        | .ok r =>
          match r, decide (r.getD [] = [] ∨ rest ≠ []) with
          | some t, true => matchLoop fuel rest t
          | _, _ =>
            if star then
              match starLoop chunk (rest = []) name with
              | .error e => .error e
              | .ok (some t) => matchLoop fuel rest t
              | .ok none => .ok false
            else .ok false

/-- Go `filepath.Match`: reports whether `name` matches the shell pattern; the
only error is `ErrBadPattern`, for a pattern found malformed while matching. -/
def Match (pattern name : String) : Except Error Bool :=
  matchLoop ((bytes pattern).length + 1) (bytes pattern) (bytes name)

end filepath

/-! ## The data model of the generator -/

namespace shared

/-- Modelled from the spec: the declaration of `shared.DefinitionFile` is not
part of `generators/copy.go`.  A placement spec has the source pattern, the
destination path (empty means the source path; a trailing separator means a
directory) and the metadata directives, which only `updateFileAccess` reads. -/
structure DefinitionFile where
  /-- the destination path -/
  Path : String
  /-- the source path or glob pattern -/
  Source : String
  /-- the ownership and permission directives, kept as one value -/
  metadata : String
  deriving DecidableEq, Repr

end shared

open shared (DefinitionFile)

/-- The arguments `filepath.Walk` passes to the walk function for one node:
the path, `fi.Mode()` and the error of reading the node. -/
structure Visit where
  /-- the path of the node: the root as given, or a path joined below it -/
  path : String
  /-- the value of `fi.Mode()`; it is read only when `err` is `nil` -/
  mode : Nat
  /-- the error `Walk` met at this node -/
  err : Option Error
  deriving DecidableEq, Repr

mutual
/-- What `filepath.Walk` does from a node.  A `leaf` is a node on which only
the walk function is called: a node that is not a directory, a node `Lstat`
failed on, or a directory whose listing failed (the visit carries the error).
A `dir` is a directory with its listing read: the walk function is called on
it and then the walk goes through the entries. -/
inductive WalkPlan (σ : Type) where
  /-- a node with no entries to go through -/
  | leaf (v : Visit) : WalkPlan σ
  /-- a directory at `path` with mode `mode` and the entries of its listing -/
  | dir (path : String) (mode : Nat) (kids : WalkKids σ) : WalkPlan σ
/-- The entries of a listing, in listing order.  What the walk does at an
entry depends on the filesystem as it is when the walk gets to it. -/
inductive WalkKids (σ : Type) where
  /-- no entry left -/
  | nil : WalkKids σ
  /-- the next entry and the entries after it -/
  | cons (first : σ → WalkPlan σ) (rest : WalkKids σ) : WalkKids σ
end

/-- The calls the generator makes, in the order they are made. -/
inductive Event where
  /-- entry of `doCopy srcPath destPath defFile` -/
  | doCopy (srcPath destPath : String) (defFile : DefinitionFile)
  /-- entry of `copyDir srcPath destPath` -/
  | copyDir (srcPath destPath : String)
  /-- entry of `copyFile src dest` -/
  | copyFile (src dest : String)
  /-- a call of `os.MkdirAll path perm` -/
  | MkdirAll (path : String) (perm : Nat)
  /-- a call of `lxd.FileCopy src dest` -/
  | FileCopy (src dest : String)
  /-- a call of `updateFileAccess` on the open file `dest` -/
  | updateFileAccess (dest : String) (defFile : DefinitionFile)
  /-- a call of `fmt.Printf format args...` -/
  | Printf (format : String) (args : List String)
  deriving DecidableEq, Repr

/-- The operations of the operating system and of the helper packages that the
generator calls, over a filesystem state `σ`. -/
structure OS (σ : Type) where
  /-- the names of the entries `ioutil.ReadDir` returns for a directory -/
  ReadDir : σ → String → Except Error (List String)
  /-- the mode `os.Stat` reports for a path -/
  Stat : σ → String → Except Error Nat
  /-- what `filepath.Walk` does from a root: `Lstat` of the root and, for a
  directory, its listing, in the filesystem as it is when the walk starts -/
  Walk : σ → String → WalkPlan σ
  /-- the function `os.MkdirAll` -/
  MkdirAll : σ → String → Nat → Option Error × σ
  /-- the function `lxd.FileCopy` -/
  FileCopy : σ → String → String → Option Error × σ
  /-- the error of `os.Open` -/
  Open : σ → String → Option Error
  /-- the function `updateFileAccess` of the generators package, applied to
  the open file at a path -/
  updateFileAccess : σ → String → DefinitionFile → Option Error × σ

/-- The state threaded through the generator: the filesystem and the log of
calls made so far. -/
structure World (σ : Type) where
  /-- the filesystem -/
  fs : σ
  /-- the calls made so far, oldest first -/
  log : List Event

namespace World

variable {σ : Type}

/-- Appends one call to the log. -/
def emit (w : World σ) (e : Event) : World σ :=
  { w with log := w.log ++ [e] }

/-- Logs a call of a writing operation and installs the filesystem it leaves. -/
def exec (w : World σ) (e : Event) (r : Option Error × σ) : Option Error × World σ :=
  (r.1, { fs := r.2, log := w.log ++ [e] })

end World

namespace filepath

variable {σ : Type}

mutual
/-- Go `filepath.Walk` on a plan, for a walk function that never returns
`SkipDir`: the function is called on the node; for a directory on which it
returned nil the entries are walked in order; the first error ends the walk
and is the result. -/
def Walk (fn : Visit → World σ → Option Error × World σ) :
    WalkPlan σ → World σ → Option Error × World σ
  | .leaf v, w => fn v w
  | .dir path mode kids, w =>
    match fn ⟨path, mode, none⟩ w with
    | (some e, w1) => (some e, w1)
    | (none, w1) => walkEntries fn kids w1
/-- The loop of Go `walk` over the entries of a directory. -/
def walkEntries (fn : Visit → World σ → Option Error × World σ) :
    WalkKids σ → World σ → Option Error × World σ
  | .nil, w => (none, w)
  | .cons first rest, w =>
    match Walk fn (first w.fs) w with
    | (some e, w1) => (some e, w1)
    | (none, w1) => walkEntries fn rest w1
end

end filepath

namespace generators

variable {σ : Type}

/-- Modelled from the spec: the declaration of `common`, which `copy` embeds,
is not part of `generators/copy.go`.  Of its fields the generator reads the
base directory `sourceDir` and reads and writes the placement spec `defFile`. -/
structure copy where
  /-- the root of the target tree -/
  sourceDir : String
  /-- the placement spec of this generator -/
  defFile : DefinitionFile
  deriving DecidableEq, Repr

/-- The error of a `(T, error)` result. -/
def errOf {α : Type} : Except Error α → Option Error
  | .ok _ => none
  | .error e => some e

/-- Go `copy.copyFile`.  The deferred `out.Close()` changes nothing the generator
reads and has no counterpart. -/
def copyFile (sys : OS σ) (src dest : String) (defFile : DefinitionFile) (w : World σ) :
    Option Error × World σ :=
  let w := w.emit (Event.copyFile src dest)
  -- Let's make sure that we can create the file
  let dir := filepath.Dir dest
  let err := errOf (sys.Stat w.fs dir)
  let r : Option Error × World σ :=
    if os.IsNotExist err then
      w.exec (Event.MkdirAll dir os.ModePerm) (sys.MkdirAll w.fs dir os.ModePerm)
    else (err, w)
  match r.1 with
  | some e => (some (Error.Wrapf e "Failed to create directory %q" [dir]), r.2)
  | none =>
    let r := r.2.exec (Event.FileCopy src dest) (sys.FileCopy r.2.fs src dest)
    match r.1 with
    | some e => (some (Error.Wrapf e "Failed to copy file %q to %q" [src, dest]), r.2)
    | none =>
      match sys.Open r.2.fs dest with
      | some e => (some (Error.Wrapf e "Failed to open file %q" [dest]), r.2)
      | none =>
        let r := r.2.exec (Event.updateFileAccess dest defFile)
          (sys.updateFileAccess r.2.fs dest defFile)
        match r.1 with
        | some e => (some (Error.Wrapf e "Failed to update file access of %q" [dest]), r.2)
        | none => (none, r.2)

/-- The walk function `copyDir` passes to `filepath.Walk`.  The check of `err`
after `filepath.Join` in the source cannot fire (`err` is `nil` there) and has
no counterpart here. -/
def walkFn (sys : OS σ) (srcPath destPath : String) (defFile : DefinitionFile)
    (v : Visit) (w : World σ) : Option Error × World σ :=
  match v.err with
  | some e => (some e, w)
  | none =>
    match filepath.Rel srcPath v.path with
    | .error e => (some (Error.Wrapf e "Failed to get relative path of %q" [srcPath]), w)
    | .ok rel =>
      let dest := filepath.Join [destPath, rel]
      let t := v.mode &&& os.ModeType
      if t = 0 ∨ t = os.ModeSymlink then
        let r := copyFile sys v.path dest defFile w
        match r.1 with
        | some e => (some (Error.Wrapf e "Failed to copy file %q to %q" [v.path, dest]), r.2)
        | none => (none, r.2)
      else if t = os.ModeDir then
        let r := w.exec (Event.MkdirAll dest os.ModePerm) (sys.MkdirAll w.fs dest os.ModePerm)
        match r.1 with
        | some e => (some (Error.Wrapf e "Failed to create directory %q" [dest]), r.2)
        | none => (none, r.2)
      else
        (none, w.emit (Event.Printf "File type of %q not supported, skipping" [v.path]))

/-- Go `copy.copyDir`. -/
def copyDir (sys : OS σ) (srcPath destPath : String) (defFile : DefinitionFile)
    (w : World σ) : Option Error × World σ :=
  let w := w.emit (Event.copyDir srcPath destPath)
  let r := filepath.Walk (walkFn sys srcPath destPath defFile) (sys.Walk w.fs srcPath) w
  match r.1 with
  | some e => (some (Error.Wrapf e "Failed to walk file tree of %q" [srcPath]), r.2)
  | none => (none, r.2)

/-- Go `copy.doCopy`. -/
def doCopy (sys : OS σ) (srcPath destPath : String) (defFile : DefinitionFile)
    (w : World σ) : Option Error × World σ :=
  let w := w.emit (Event.doCopy srcPath destPath defFile)
  match sys.Stat w.fs srcPath with
  | .error e => (some (Error.Wrapf e "Failed to stat file %q" [srcPath]), w)
  | .ok mode =>
    let t := mode &&& os.ModeType
    if t = 0 ∨ t = os.ModeSymlink then
      -- Regular file
      let destPath :=
        if strings.HasSuffix defFile.Path "/" then
          filepath.Join [destPath, filepath.Base srcPath]
        else destPath
      let r := copyFile sys srcPath destPath defFile w
      match r.1 with
      | some e => (some (Error.Wrapf e "Failed to copy file %q to %q" [srcPath, destPath]), r.2)
      | none => (none, r.2)
    else if t = os.ModeDir then
      let r := copyDir sys srcPath destPath defFile w
      match r.1 with
      | some e => (some (Error.Wrapf e "Failed to copy file %q to %q" [srcPath, destPath]), r.2)
      | none => (none, r.2)
    else
      (some (Error.Errorf "File type of %q not supported" [srcPath]), w)

/-- The loop of `Run` over the directory listing: the entries whose joined
path matches the pattern are appended to `files`; the first error of
`filepath.Match` ends the loop. -/
def matchEntries (srcPath : String) : List String → List String → Except Error (List String)
  | [], files => .ok files
  | f :: rest, files =>
    match filepath.Match srcPath (filepath.Join [filepath.Dir srcPath, f]) with
    | .error e => .error e
    | .ok m =>
      if m then matchEntries srcPath rest (files ++ [filepath.Join [filepath.Dir srcPath, f]])
      else matchEntries srcPath rest files

/-- The loop of `Run` over several matches: every match is copied in turn and
the first error breaks the loop; the result is the last value of `err`. -/
def copyEach (sys : OS σ) (destPath : String) (defFile : DefinitionFile) :
    List String → World σ → Option Error × World σ
  | [], w => (none, w)
  | f :: rest, w =>
    match doCopy sys f destPath defFile w with
    | (some e, w1) => (some e, w1)
    | (none, w1) => copyEach sys destPath defFile rest w1

/-- The end of `Run`: an error of the copy is wrapped. -/
def finish (g : copy) (r : Option Error × World σ) : Option Error × copy × World σ :=
  match r.1 with
  | some e => (some (Error.Wrap e "Failed to copy file(s)"), g, r.2)
  | none => (none, g, r.2)

/-- The destination `Run` computes before it lists the directory. -/
def destPathOf (g : copy) : String :=
  if g.defFile.Path ≠ "" then filepath.Join [g.sourceDir, g.defFile.Path]
  else filepath.Join [g.sourceDir, g.defFile.Source]

/-- Go `copy.Run`.  The receiver is a pointer, so the generator after the call
is part of the result. -/
def Run (sys : OS σ) (g : copy) (w : World σ) : Option Error × copy × World σ :=
  let srcPath := g.defFile.Source
  let destPath := destPathOf g
  match sys.ReadDir w.fs (filepath.Dir srcPath) with
  | .error e =>
    (some (Error.Wrapf e "Failed to read directory %q" [filepath.Dir srcPath]), g, w)
  | .ok dirFiles =>
    match matchEntries srcPath dirFiles [] with
    | .error e => (some (Error.Wrap e "Failed to match pattern"), g, w)
    | .ok files =>
      match files.length with
      | 0 =>
        -- Look for the literal file
        match sys.Stat w.fs srcPath with
        | .error e => (some (Error.Wrapf e "Failed to stat file %q" [srcPath]), g, w)
        | .ok _ => finish g (doCopy sys srcPath destPath g.defFile w)
      | 1 => finish g (doCopy sys srcPath destPath g.defFile w)
      | _ =>
        -- Make sure that we are copying to a directory
        let g1 : copy := { g with defFile := { g.defFile with Path := g.defFile.Path ++ "/" } }
        finish g1 (copyEach sys destPath g1.defFile files w)

/-- Calling a walk function on a list of nodes one after the other, up to the
first error. -/
def walkAll (fn : Visit → World σ → Option Error × World σ) :
    List Visit → World σ → Option Error × World σ
  | [], w => (none, w)
  | v :: vs, w =>
    match fn v w with
    | (some e, w1) => (some e, w1)
    | (none, w1) => walkAll fn vs w1

mutual
/-- The nodes a walk of a plan calls the walk function on, in order. -/
def walkVisits (fn : Visit → World σ → Option Error × World σ) :
    WalkPlan σ → World σ → List Visit
  | .leaf v, _ => [v]
  | .dir path mode kids, w =>
    ⟨path, mode, none⟩ ::
      (match fn ⟨path, mode, none⟩ w with
      | (some _, _) => []
      | (none, w1) => entriesVisits fn kids w1)
/-- The nodes a walk of the entries of a directory calls the walk function on. -/
def entriesVisits (fn : Visit → World σ → Option Error × World σ) :
    WalkKids σ → World σ → List Visit
  | .nil, _ => []
  | .cons first rest, w =>
    walkVisits fn (first w.fs) w ++
      (match filepath.Walk fn (first w.fs) w with
      | (some _, _) => []
      | (none, w1) => entriesVisits fn rest w1)
end

end generators

/-! ## A small concrete filesystem

An instance of `OS` on which the generator can be run.  The filesystem is the
list of its nodes, each with its cleaned path, its mode and, for a symbolic
link, its target.  Paths are resolved component by component and symbolic
links are followed as the operating system does. -/

namespace SimFS

/-- A node of the filesystem. -/
structure Node where
  /-- the cleaned path of the node, with no symbolic link on the way -/
  path : String
  /-- the mode bits -/
  mode : Nat
  /-- the target of a symbolic link, empty for other nodes -/
  target : String
  deriving DecidableEq, Repr

/-- The nodes of the filesystem. -/
abbrev FS := List Node

/-- The errno `ENOTDIR`. -/
def ENOTDIR : Nat := 20
/-- The errno `EISDIR`. -/
def EISDIR : Nat := 21
/-- The errno `ENAMETOOLONG`. -/
def ENAMETOOLONG : Nat := 36
/-- The errno `ELOOP`. -/
def ELOOP : Nat := 40

/-- The node stored at a resolved path. -/
def find (fs : FS) (p : String) : Option Node :=
  fs.find? (fun n => n.path = p)

/-- Whether a node is a symbolic link. -/
def isLink (n : Node) : Bool := n.mode &&& os.ModeType = os.ModeSymlink

/-- Whether a mode is that of a directory. -/
def isDirMode (m : Nat) : Bool := m &&& os.ModeType = os.ModeDir

/-- The non-empty components of a path. -/
def components (p : String) : List String :=
  ((filepath.splitSep p.data).filter (fun e => e ≠ [])).map String.mk

/-- Where the resolution of a path starts: the root for a rooted path. -/
def origin (p : String) : String :=
  if p.data.head? = some filepath.Separator then "/" else "."

/-- Resolves the components of a path from the resolved directory `cur`.  A
symbolic link met on the way is replaced by its target; the last component is
followed only when `follow` is set.  The result is the resolved path, whose
last component may be missing; no result means a missing directory or a node
that is not a directory on the way, or too many links. -/
def resolveFrom : Nat → FS → String → List String → Bool → Except Error String
  | 0, _, _, _, _ => .error (Error.errno ELOOP)
  | _ + 1, _, cur, [], _ => .ok cur
  | fuel + 1, fs, cur, c :: rest, follow =>
    let p := filepath.Join [cur, c]
    match find fs p with
    | none => if rest = [] then .ok p else .error (Error.errno os.ENOENT)
    | some n =>
      if isLink n ∧ (rest ≠ [] ∨ follow) then
        resolveFrom fuel fs (if origin n.target = "/" then "/" else cur)
          (components n.target ++ rest) follow
      else if rest ≠ [] ∧ ¬ isDirMode n.mode then .error (Error.errno ENOTDIR)
      else resolveFrom fuel fs p rest follow

/-- The resolved form of a path. -/
def resolve (fs : FS) (p : String) (follow : Bool) : Except Error String :=
  resolveFrom 64 fs (origin p) (components p) follow

/-- The node a path leads to. -/
def nodeAt (fs : FS) (p : String) (follow : Bool) : Except Error Node :=
  match resolve fs p follow with
  | .error e => .error e
  | .ok q =>
    match find fs q with
    | some n => .ok n
    | none => .error (Error.errno os.ENOENT)

/-- The call `os.Stat`: symbolic links are followed. -/
def Stat (fs : FS) (p : String) : Except Error Nat :=
  match nodeAt fs p true with
  | .ok n => .ok n.mode
  | .error e => .error e

/-- The call `os.Lstat`: a symbolic link is reported as such. -/
def Lstat (fs : FS) (p : String) : Except Error Nat :=
  match nodeAt fs p false with
  | .ok n => .ok n.mode
  | .error e => .error e

/-- The order of Go strings: byte by byte. -/
def ltBytes : List Nat → List Nat → Bool
  | _, [] => false
  | [], _ :: _ => true
  | a :: as, b :: bs => a < b || (a = b && ltBytes as bs)

/-- Inserts a name into a sorted list of names. -/
def insertName (a : String) : List String → List String
  | [] => [a]
  | b :: bs =>
    if ltBytes (filepath.bytes a) (filepath.bytes b) then a :: b :: bs
    else b :: insertName a bs

/-- Sorts names, as the listing functions of Go do. -/
def sortNames : List String → List String
  | [] => []
  | a :: as => insertName a (sortNames as)

/-- The call `ioutil.ReadDir`: the sorted names of the entries of a directory. -/
def ReadDir (fs : FS) (d : String) : Except Error (List String) :=
  match nodeAt fs d true with
  | .error e => .error e
  | .ok n =>
    if isDirMode n.mode then
      .ok (sortNames ((fs.filter (fun e => e.path ≠ n.path ∧ filepath.Dir e.path = n.path)).map
        (fun e => filepath.Base e.path)))
    else .error (Error.errno ENOTDIR)

/-- Turns a list of entries into the entries of a plan. -/
def kidsOf : List (FS → WalkPlan FS) → WalkKids FS
  | [] => .nil
  | k :: ks => .cons k (kidsOf ks)

/-- What `filepath.Walk` does from `p`: `Lstat`, and for a directory its
listing; an entry `name` is the plan from `Join [p, name]` in the filesystem of
the moment.  The counter bounds the depth of the walk. -/
def planOf : Nat → FS → String → WalkPlan FS
  | 0, _, p => .leaf ⟨p, 0, some (Error.errno ENAMETOOLONG)⟩
  | fuel + 1, fs, p =>
    match Lstat fs p with
    | .error e => .leaf ⟨p, 0, some e⟩
    | .ok m =>
      if isDirMode m then
        match ReadDir fs p with
        | .error e => .leaf ⟨p, m, some e⟩
        | .ok names =>
          .dir p m (kidsOf (names.map (fun n fs1 => planOf fuel fs1 (filepath.Join [p, n]))))
      else .leaf ⟨p, m, none⟩

/-- The plan of `filepath.Walk` from a root. -/
def Walk (fs : FS) (root : String) : WalkPlan FS :=
  planOf 64 fs root

/-- The recursion of `os.MkdirAll`: the missing ancestors are made first. -/
def mkdirAll : Nat → FS → String → Nat → Option Error × FS
  | 0, fs, _, _ => (some (Error.errno ENAMETOOLONG), fs)
  | n + 1, fs, p, perm =>
    match Stat fs p with
    | .ok m => if isDirMode m then (none, fs) else (some (Error.errno ENOTDIR), fs)
    | .error _ =>
      let r : Option Error × FS :=
        if filepath.Dir p = filepath.Clean p then (none, fs)
        else mkdirAll n fs (filepath.Dir p) perm
      match r.1 with
      | some e => (some e, r.2)
      | none =>
        match resolve r.2 p true with
        | .error e => (some e, r.2)
        | .ok q => (none, r.2 ++ [⟨q, os.ModeDir ||| perm, ""⟩])

/-- The call `os.MkdirAll`. -/
def MkdirAll (fs : FS) (p : String) (perm : Nat) : Option Error × FS :=
  mkdirAll (p.data.length + 1) fs p perm

/-- The call `lxd.FileCopy`: the node at `dest` becomes a copy of the node at
`src`; a symbolic link is copied as a link. -/
def FileCopy (fs : FS) (src dest : String) : Option Error × FS :=
  match nodeAt fs src false with
  | .error e => (some e, fs)
  | .ok n =>
    match resolve fs dest true with
    | .error e => (some e, fs)
    | .ok q =>
      match Stat fs (filepath.Dir q) with
      | .error e => (some e, fs)
      | .ok dm =>
        if ¬ isDirMode dm then (some (Error.errno ENOTDIR), fs)
        else if (find fs q).any (fun old => isDirMode old.mode) then
          (some (Error.errno EISDIR), fs)
        else (none, fs.filter (fun e => e.path ≠ q) ++ [⟨q, n.mode, n.target⟩])

/-- The call `os.Open`. -/
def Open (fs : FS) (p : String) : Option Error :=
  match Stat fs p with
  | .ok _ => none
  | .error e => some e

/-- The call `updateFileAccess`, with no directives to apply. -/
def updateFileAccess (fs : FS) (_dest : String) (_defFile : DefinitionFile) :
    Option Error × FS :=
  (none, fs)

/-- The operating system over the concrete filesystem. -/
def sys : OS FS where
  ReadDir := ReadDir
  Stat := Stat
  Walk := Walk
  MkdirAll := MkdirAll
  FileCopy := FileCopy
  Open := Open
  updateFileAccess := updateFileAccess

/-- The mode of a directory with permissions 0755. -/
def dirMode : Nat := os.ModeDir ||| 0o755
/-- The mode of a regular file with permissions 0644. -/
def fileMode : Nat := 0o644
/-- The mode of a named pipe with permissions 0644. -/
def pipeMode : Nat := os.ModeNamedPipe ||| 0o644
/-- The mode of a symbolic link. -/
def linkMode : Nat := os.ModeSymlink ||| 0o777

/-- A world with an empty log. -/
def world (fs : FS) : World FS := { fs := fs, log := [] }

/-- A filesystem with a source directory holding a file, a directory with a
file and a named pipe inside and an empty directory; a directory with a named
pipe between two files; a directory with a symbolic link to a directory and a
file; and an empty target tree. -/
def tree : FS :=
  [⟨"/", dirMode, ""⟩, ⟨"/links", dirMode, ""⟩, ⟨"/links/dl", linkMode, "/src/d"⟩,
    ⟨"/links/x", fileMode, ""⟩, ⟨"/pipes", dirMode, ""⟩, ⟨"/pipes/a", fileMode, ""⟩,
    ⟨"/pipes/b", pipeMode, ""⟩, ⟨"/pipes/c", fileMode, ""⟩, ⟨"/rootfs", dirMode, ""⟩,
    ⟨"/src", dirMode, ""⟩, ⟨"/src/a.txt", fileMode, ""⟩, ⟨"/src/d", dirMode, ""⟩,
    ⟨"/src/d/f", fileMode, ""⟩, ⟨"/src/d/p", pipeMode, ""⟩, ⟨"/src/e", dirMode, ""⟩]

/-- A generator for the target tree `/rootfs`. -/
def gen (source path : String) : generators.copy :=
  { sourceDir := "/rootfs", defFile := { Path := path, Source := source, metadata := "" } }

end SimFS

/-! ## Reading the log -/

namespace Event

/-- The source path of a `doCopy` entry. -/
def doCopySrc : Event → Option String
  | doCopy srcPath _ _ => some srcPath
  | _ => none

/-- The source and destination of a call of `lxd.FileCopy`. -/
def fileCopyPair : Event → Option (String × String)
  | FileCopy src dest => some (src, dest)
  | _ => none

/-- Whether the entry is a call of an operation outside the generator. -/
def isPrim : Event → Bool
  | MkdirAll _ _ => true
  | FileCopy _ _ => true
  | updateFileAccess _ _ => true
  | Printf _ _ => true
  | _ => false

end Event

/-- The source paths `doCopy` was entered with, oldest first. -/
def doCopyCalls (log : List Event) : List String :=
  log.filterMap Event.doCopySrc

/-- The (source, destination) pairs `lxd.FileCopy` was called with, oldest
first. -/
def fileCopyCalls (log : List Event) : List (String × String) :=
  log.filterMap Event.fileCopyPair

/-- The kind test of the first case of both switches: a regular file or a
symbolic link. -/
def isRegularOrSymlink (mode : Nat) : Prop :=
  mode &&& os.ModeType = 0 ∨ mode &&& os.ModeType = os.ModeSymlink

/-- The kind test of the second case of both switches: a directory. -/
def isDirectory (mode : Nat) : Prop :=
  mode &&& os.ModeType = os.ModeDir

/-- The kinds that reach the default case of both switches. -/
def isUnsupported (mode : Nat) : Prop :=
  ¬ isRegularOrSymlink mode ∧ ¬ isDirectory mode

instance (mode : Nat) : Decidable (isRegularOrSymlink mode) := by
  unfold isRegularOrSymlink; infer_instance

instance (mode : Nat) : Decidable (isDirectory mode) := by
  unfold isDirectory; infer_instance

instance (mode : Nat) : Decidable (isUnsupported mode) := by
  unfold isUnsupported; infer_instance

/-- How `doCopy` and the walk function pass on the result of a copy: the world
is kept and an error is wrapped with both paths. -/
def wrapCopy {σ : Type} (src dest : String) (r : Option Error × World σ) :
    Option Error × World σ :=
  (r.1.map (fun e => Error.Wrapf e "Failed to copy file %q to %q" [src, dest]), r.2)

/-- A malformed pattern: one that `filepath.Match` reports as bad on some
name. -/
def Malformed (pattern : String) : Prop :=
  ∃ name : String, filepath.Match pattern name = .error Error.ErrBadPattern

/-- A character that stands for itself in a pattern. -/
def litChar (c : Char) : Prop := c ≠ '*' ∧ c ≠ '?' ∧ c ≠ '[' ∧ c ≠ '\\'

instance (c : Char) : Decidable (litChar c) := by
  unfold litChar; infer_instance

/-- A path without the characters that are special in a pattern. -/
def isLiteral (path : String) : Prop :=
  ∀ c ∈ path.data, litChar c

instance (path : String) : Decidable (isLiteral path) := by
  unfold isLiteral; infer_instance

/-- A byte that stands for itself in a pattern. -/
def litByte (b : Nat) : Prop :=
  b ≠ filepath.bStar ∧ b ≠ filepath.bQuery ∧ b ≠ filepath.bOpen ∧ b ≠ filepath.bEsc

/-- The destination `doCopy` gives a regular file or symbolic link. -/
def fileDest (srcPath destPath : String) (defFile : DefinitionFile) : String :=
  if strings.HasSuffix defFile.Path "/" then filepath.Join [destPath, filepath.Base srcPath]
  else destPath

/-- The generator after the rewrite of the many-matches branch of `Run`: the
destination path of its spec has a separator appended. -/
def withSeparator (g : generators.copy) : generators.copy :=
  { g with defFile := { g.defFile with Path := g.defFile.Path ++ "/" } }

/-! ## The placement rules of the specification

The Copier of the specification (section 4.2), written over the operations of
the operating system alone.  These definitions follow the words of the
specification and not the code; the theorems on the generator compare the
code with them. -/

namespace spec

/-- What a placement is seen to do from outside: whether it succeeded, the
filesystem it leaves, and the calls of outside operations it made, in order. -/
structure Outcome (σ : Type) where
  /-- whether the placement returned without error -/
  ok : Bool
  /-- the filesystem it leaves -/
  fs : σ
  /-- the calls of outside operations it made -/
  calls : List Event
  deriving DecidableEq, Repr

variable {σ : Type}

/-- Sequencing: a failure aborts, with what was done up to it left in place. -/
def Outcome.andThen (a : Outcome σ) (next : σ → Outcome σ) : Outcome σ :=
  if a.ok then ⟨(next a.fs).ok, (next a.fs).fs, a.calls ++ (next a.fs).calls⟩ else a

/-- The outcome of one writing operation. -/
def call (e : Event) (r : Option Error × σ) : Outcome σ :=
  ⟨r.1.isNone, r.2, [e]⟩

/-- The specification, 4.2 RegularOrSymlink: "Ensure the destination's parent
directory exists (create recursively if missing).  Perform the byte-level copy.
Re-open the destination for metadata normalization; apply the metadata spec;
any failure at copy or metadata-apply stage fails the whole Place call." -/
def placeFile (sys : OS σ) (src dest : String) (defFile : DefinitionFile) (fs : σ) :
    Outcome σ :=
  let parent : Outcome σ :=
    match sys.Stat fs (filepath.Dir dest) with
    | .ok _ => ⟨true, fs, []⟩
    | .error e =>
      if os.IsNotExist (some e) then
        call (Event.MkdirAll (filepath.Dir dest) os.ModePerm)
          (sys.MkdirAll fs (filepath.Dir dest) os.ModePerm)
      else ⟨false, fs, []⟩
  parent.andThen fun fs1 =>
    (call (Event.FileCopy src dest) (sys.FileCopy fs1 src dest)).andThen fun fs2 =>
      match sys.Open fs2 dest with
      | some _ => ⟨false, fs2, []⟩
      | none => call (Event.updateFileAccess dest defFile) (sys.updateFileAccess fs2 dest defFile)

/-- The specification, 4.2 Directory, for one visited node: "compute its path
relative to `src` and join onto `dest` to get the mirrored destination path.
If the node is RegularOrSymlink, copy it with metadata normalization exactly as
above (dest is the mirrored path, directory walks never append baseName).  If
the node is a Directory, create it (and any missing ancestors) at the mirrored
path; do not copy metadata onto directories.  If the node is Unsupported, emit
a warning and continue the walk."  A node the walk could not read, or one with
no relative path, fails the walk. -/
def mirrorNode (sys : OS σ) (srcPath destPath : String) (defFile : DefinitionFile)
    (v : Visit) (fs : σ) : Outcome σ :=
  match v.err with
  | some _ => ⟨false, fs, []⟩
  | none =>
    match filepath.Rel srcPath v.path with
    | .error _ => ⟨false, fs, []⟩
    | .ok rel =>
      if isRegularOrSymlink v.mode then
        placeFile sys v.path (filepath.Join [destPath, rel]) defFile fs
      else if isDirectory v.mode then
        call (Event.MkdirAll (filepath.Join [destPath, rel]) os.ModePerm)
          (sys.MkdirAll fs (filepath.Join [destPath, rel]) os.ModePerm)
      else ⟨true, fs, [Event.Printf "File type of %q not supported, skipping" [v.path]]⟩

mutual
/-- The specification, 4.2 Directory: "walk the subtree rooted at `src`
recursively", mirroring every visited node; a directory is mirrored before its
entries, and the entries in listing order. -/
def mirror (sys : OS σ) (srcPath destPath : String) (defFile : DefinitionFile) :
    WalkPlan σ → σ → Outcome σ
  | .leaf v, fs => mirrorNode sys srcPath destPath defFile v fs
  | .dir path mode kids, fs =>
    let a := mirrorNode sys srcPath destPath defFile ⟨path, mode, none⟩ fs
    if a.ok then
      let b := mirrorEntries sys srcPath destPath defFile kids a.fs
      ⟨b.ok, b.fs, a.calls ++ b.calls⟩
    else a
/-- The entries of a directory, mirrored one after the other. -/
def mirrorEntries (sys : OS σ) (srcPath destPath : String) (defFile : DefinitionFile) :
    WalkKids σ → σ → Outcome σ
  | .nil, fs => ⟨true, fs, []⟩
  | .cons first rest, fs =>
    let a := mirror sys srcPath destPath defFile (first fs) fs
    if a.ok then
      let b := mirrorEntries sys srcPath destPath defFile rest a.fs
      ⟨b.ok, b.fs, a.calls ++ b.calls⟩
    else a
end

/-- The specification, 4.2 `Place`: "Stat `src`; NotFound fails immediately.
Classify by entry kind.  RegularOrSymlink: if the destination spec indicates
directory (trailing separator), the final destination is
`join(dest, baseName(src))`; otherwise destination is `dest` verbatim.
Directory: walk the subtree rooted at `src`.  Unsupported: fails, nothing was
written." -/
def place (sys : OS σ) (src dest : String) (defFile : DefinitionFile) (fs : σ) : Outcome σ :=
  match sys.Stat fs src with
  | .error _ => ⟨false, fs, []⟩
  | .ok mode =>
    if isRegularOrSymlink mode then
      placeFile sys src
        (if strings.HasSuffix defFile.Path "/" then filepath.Join [dest, filepath.Base src]
          else dest) defFile fs
    else if isDirectory mode then mirror sys src dest defFile (sys.Walk fs src) fs
    else ⟨false, fs, []⟩

/-- The specification, 4.1 step 5 with 4.2: one `Place` per match, in order,
the first failure aborting the rest. -/
def placeAll (sys : OS σ) (dest : String) (defFile : DefinitionFile) :
    List String → σ → Outcome σ
  | [], fs => ⟨true, fs, []⟩
  | f :: rest, fs =>
    let a := place sys f dest defFile fs
    if a.ok then
      let b := placeAll sys dest defFile rest a.fs
      ⟨b.ok, b.fs, a.calls ++ b.calls⟩
    else a

end spec

/-- What a function of the generator is seen to do from outside when started
in `w` with result `r`: whether it returned nil, the filesystem it left, and
the calls of outside operations it added to the log. -/
def outcome {σ : Type} (w : World σ) (r : Option Error × World σ) : spec.Outcome σ :=
  ⟨r.1.isNone, r.2.fs, (r.2.log.drop w.log.length).filter Event.isPrim⟩

/-- The result `r` of a function started in `w` has the outcome `o` and has
only added to the log. -/
def Refines {σ : Type} (w : World σ) (r : Option Error × World σ) (o : spec.Outcome σ) : Prop :=
  r.1.isNone = o.ok ∧ r.2.fs = o.fs ∧
    ∃ evs, r.2.log = w.log ++ evs ∧ evs.filter Event.isPrim = o.calls

/-! ## The cleaned form of a path

The vocabulary for reasoning about `filepath.Clean`: a path is a rooted flag
and a list of elements, and cleaning normalises the list. -/

/-- One step of the element loop of `filepath.Clean`, on the output so far
(last element first). -/
def cleanStep (rooted : Bool) (acc : List (List Char)) (e : List Char) : List (List Char) :=
  if e = [] ∨ e = ['.'] then acc
  else if e = ['.', '.'] then
    match acc with
    | [] => if rooted then [] else [e]
    | top :: rest => if top = ['.', '.'] then e :: top :: rest else rest
  else e :: acc

/-- Whether a path starts with the separator. -/
def isRooted (p : List Char) : Bool := p.head? == some filepath.Separator

/-- The cleaned elements of a path. -/
def normElems (p : List Char) : List (List Char) :=
  filepath.cleanElems (isRooted p) (filepath.splitSep p) []

/-- The characters of the cleaned path with the given rooted flag and elements. -/
def render (rooted : Bool) (E : List (List Char)) : List Char :=
  if rooted then filepath.Separator :: filepath.joinSep E
  else if filepath.joinSep E = [] then ['.'] else filepath.joinSep E

/-- A path element that is a name: not empty, without separator, neither `.`
nor `..`. -/
def validElem (e : List Char) : Prop :=
  e ≠ [] ∧ filepath.Separator ∉ e ∧ e ≠ ['.'] ∧ e ≠ ['.', '.']

instance (e : List Char) : Decidable (validElem e) := by
  unfold validElem; infer_instance

/-- The shape of a cleaned element list, last element first: names on top of a
run of `..`, which is empty for a rooted path. -/
def NormAcc (rooted : Bool) (acc : List (List Char)) : Prop :=
  ∃ (V : List (List Char)) (k : Nat), acc = V ++ List.replicate k ['.', '.'] ∧
    (∀ e ∈ V, validElem e) ∧ (rooted = true → k = 0)

/-- The name of a directory entry: not empty, without separator, neither `.`
nor `..`. -/
def validName (n : String) : Prop := validElem n.data

instance (n : String) : Decidable (validName n) := by
  unfold validName; infer_instance

/-- The path `filepath.Walk` forms for the node reached from `root` through
the entries `names`: each step is `Join(path, name)`. -/
def walkPath (root : String) (names : List String) : String :=
  names.foldl (fun p n => filepath.Join [p, n]) root

section Utf8Lemmas

open filepath

theorem char_toNat_lt (c : Char) : c.val.toNat < 0x110000 := by
  have h := c.valid
  unfold UInt32.isValidChar Nat.isValidChar at h
  rcases h with h | h <;> omega

theorem char_eq_of_toNat (c d : Char) (h : c.val.toNat = d.val.toNat) : c = d := by
  apply Char.ext
  apply UInt32.ext
  exact h

/-- The encoding of a character is a prefix code. -/
theorem utf8_append_inj (c d : Char) (r s : List Nat) (h : utf8 c ++ r = utf8 d ++ s) :
    c = d ∧ r = s := by
  have hc := char_toNat_lt c
  have hd := char_toNat_lt d
  unfold utf8 at h
  simp only [] at h
  split_ifs at h <;>
    simp only [List.cons_append, List.nil_append, List.cons.injEq] at h <;>
    first
    | (exfalso; omega)
    | (refine ⟨char_eq_of_toNat c d ?_, ?_⟩
       · omega
       · simp [h])

theorem bytesOf_inj (l₁ l₂ : List Char) (h : bytesOf l₁ = bytesOf l₂) : l₁ = l₂ := by
  induction l₁ generalizing l₂ with
  | nil =>
    cases l₂ with
    | nil => rfl
    | cons d ds =>
      exfalso
      simp only [bytesOf] at h
      unfold utf8 at h
      simp only [] at h
      split_ifs at h <;> simp at h
  | cons c cs ih =>
    cases l₂ with
    | nil =>
      exfalso
      simp only [bytesOf] at h
      unfold utf8 at h
      simp only [] at h
      split_ifs at h <;> simp at h
    | cons d ds =>
      simp only [bytesOf] at h
      obtain ⟨h1, h2⟩ := utf8_append_inj c d _ _ h
      rw [h1, ih ds h2]

/-- Two strings with the same bytes are the same string. -/
theorem bytes_inj (s t : String) (h : bytes s = bytes t) : s = t := by
  obtain ⟨p⟩ := s
  obtain ⟨q⟩ := t
  simp only [bytes] at h
  rw [bytesOf_inj p q h]

/-- The bytes of a character that is not special in a pattern are not either. -/
theorem utf8_lit (c : Char) (h : litChar c) : ∀ b ∈ utf8 c, litByte b := by
  obtain ⟨h1, h2, h3, h4⟩ := h
  have e1 : c.val.toNat ≠ 42 := fun e => h1 (char_eq_of_toNat c '*' (by rw [e]; rfl))
  have e2 : c.val.toNat ≠ 63 := fun e => h2 (char_eq_of_toNat c '?' (by rw [e]; rfl))
  have e3 : c.val.toNat ≠ 91 := fun e => h3 (char_eq_of_toNat c '[' (by rw [e]; rfl))
  have e4 : c.val.toNat ≠ 92 := fun e => h4 (char_eq_of_toNat c '\\' (by rw [e]; rfl))
  intro b hb
  unfold utf8 at hb
  simp only [] at hb
  unfold litByte bStar bQuery bOpen bEsc
  split_ifs at hb <;> simp only [List.mem_cons, List.mem_singleton, List.not_mem_nil, or_false] at hb <;>
    omega

theorem bytesOf_lit (l : List Char) (h : ∀ c ∈ l, litChar c) : ∀ b ∈ bytesOf l, litByte b := by
  induction l with
  | nil => intro b hb; simp [bytesOf] at hb
  | cons c cs ih =>
    intro b hb
    simp only [bytesOf, List.mem_append] at hb
    rcases hb with hb | hb
    · exact utf8_lit c (h c (List.mem_cons_self _ _)) b hb
    · exact ih (fun x hx => h x (List.mem_cons_of_mem _ hx)) b hb

end Utf8Lemmas

section MatchLemmas

open filepath

theorem scanStars_of_ne (l : List Nat) (h : ∀ c ∈ l.head?, c ≠ bStar) :
    scanStars l = (false, l) := by
  cases l with
  | nil => rfl
  | cons c cs =>
    have hc : c ≠ bStar := h c (by simp)
    simp [scanStars, hc]

theorem scanChunkAux_cons (inrange : Bool) (c : Nat) (cs : List Nat) (h : litByte c) :
    scanChunkAux inrange (c :: cs) =
      (c :: (scanChunkAux (if c = bClose then false else inrange) cs).1,
        (scanChunkAux (if c = bClose then false else inrange) cs).2) := by
  obtain ⟨h1, h2, h3, h4⟩ := h
  cases cs with
  | nil => simp [scanChunkAux, h1]
  | cons d ds =>
    simp only [scanChunkAux, h4, h3, h1, if_false, false_and]
    split_ifs <;> rfl

theorem scanChunkAux_literal (l : List Nat) (h : ∀ c ∈ l, litByte c) (inrange : Bool) :
    scanChunkAux inrange l = (l, []) := by
  induction l generalizing inrange with
  | nil => simp [scanChunkAux]
  | cons c cs ih =>
    rw [scanChunkAux_cons inrange c cs (h c (List.mem_cons_self _ _))]
    rw [ih (fun x hx => h x (List.mem_cons_of_mem _ hx))]

theorem matchChunkAux_lit_cons (fuel : Nat) (c : Nat) (cs s : List Nat) (failed : Bool)
    (h : litByte c) :
    matchChunkAux (fuel + 1) (c :: cs) s failed =
      if (failed || s.isEmpty) = true then matchChunkAux fuel cs s (failed || s.isEmpty)
      else matchChunkAux fuel cs s.tail (s.head? != some c) := by
  obtain ⟨h1, h2, h3, h4⟩ := h
  simp [matchChunkAux, h2, h3, h4]

/-- A chunk of plain bytes matches exactly the names it is a prefix of. -/
theorem matchChunkAux_literal (l : List Nat) (h : ∀ c ∈ l, litByte c) (fuel : Nat)
    (hf : l.length + 1 ≤ fuel) (s : List Nat) (failed : Bool) :
    matchChunkAux fuel l s failed =
      .ok (if failed = true then none
        else if l <+: s then some (s.drop l.length) else none) := by
  induction l generalizing fuel s failed with
  | nil =>
    obtain ⟨n, rfl⟩ : ∃ n, fuel = n + 1 := ⟨fuel - 1, by simp at hf; omega⟩
    cases failed <;> simp [matchChunkAux]
  | cons c cs ih =>
    obtain ⟨n, rfl⟩ : ∃ n, fuel = n + 1 := ⟨fuel - 1, by simp at hf; omega⟩
    have hn : cs.length + 1 ≤ n := by simp at hf; omega
    have hcs : ∀ x ∈ cs, litByte x := fun x hx => h x (List.mem_cons_of_mem _ hx)
    rw [matchChunkAux_lit_cons n c _ s failed (h c (List.mem_cons_self _ _))]
    cases failed with
    | true => simp [ih hcs n hn]
    | false =>
      cases s with
      | nil => simp [ih hcs n hn]
      | cons x xs =>
        simp only [Bool.false_or, List.isEmpty_cons, Bool.false_eq_true, if_false,
          List.tail_cons, List.head?_cons]
        rw [ih hcs n hn]
        by_cases hx : x = c
        · subst hx
          simp [List.prefix_cons_inj]
        · have : ¬ (c :: cs <+: x :: xs) := by
            intro hp
            rw [List.cons_prefix_cons] at hp
            exact hx hp.1.symm
          simp [hx, this]

/-- A pattern of plain bytes matches its own bytes and nothing else. -/
theorem matchLoop_literal (p s : List Nat) (h : ∀ c ∈ p, litByte c)
    (hm : matchLoop (p.length + 1) p s = .ok true) : s = p := by
  cases p with
  | nil =>
    simp [matchLoop] at hm
    exact hm
  | cons c cs =>
    have hsc : scanChunk (c :: cs) = (false, c :: cs, []) := by
      unfold scanChunk
      rw [scanStars_of_ne (c :: cs) (by
        intro x hx
        simp at hx
        subst hx
        exact (h _ (List.mem_cons_self _ _)).1)]
      simp [scanChunkAux_literal (c :: cs) h]
    have hmc : matchChunk (c :: cs) s =
        .ok (if (c :: cs) <+: s then some (s.drop (c :: cs).length) else none) := by
      unfold matchChunk
      rw [matchChunkAux_literal (c :: cs) h _ (le_refl _)]
      simp
    simp only [List.length_cons, matchLoop, hsc, hmc] at hm
    by_cases hp : (c :: cs) <+: s
    · obtain ⟨t, rfl⟩ := hp
      cases t with
      | nil => simp
      | cons y ys => simp at hm
    · simp [hp] at hm

/-- A pattern of plain characters matches its own text and nothing else. -/
theorem Match_literal (pattern name : String) (h : ∀ c ∈ pattern.data, litChar c)
    (hm : Match pattern name = .ok true) : name = pattern := by
  unfold Match at hm
  exact bytes_inj _ _ (matchLoop_literal _ _ (bytesOf_lit _ h) hm)

theorem getEsc_error (chunk : List Nat) (e : Error) (h : getEsc chunk = .error e) :
    e = Error.ErrBadPattern := by
  unfold getEsc at h
  simp only [] at h
  repeat' split at h
  all_goals first
    | (simp at h; done)
    | (injection h with h; subst h; rfl)

theorem parseRanges_error (fuel r : Nat) (chunk : List Nat) (matched : Bool) (nrange : Nat)
    (e : Error) (h : parseRanges fuel r chunk matched nrange = .error e) :
    e = Error.ErrBadPattern := by
  induction fuel generalizing chunk matched nrange with
  | zero =>
    simp only [parseRanges] at h
    injection h with h
    exact h.symm
  | succ n ih =>
    unfold parseRanges at h
    repeat' split at h
    all_goals first
      | exact ih _ _ _ h
      | (simp at h; done)
      | (injection h with h; subst h; exact getEsc_error _ _ (by assumption))

theorem matchChunkAux_error (fuel : Nat) (chunk s : List Nat) (failed : Bool) (e : Error)
    (h : matchChunkAux fuel chunk s failed = .error e) : e = Error.ErrBadPattern := by
  induction fuel generalizing chunk s failed with
  | zero => simp [matchChunkAux] at h
  | succ n ih =>
    unfold matchChunkAux at h
    simp only [] at h
    repeat' split at h
    all_goals first
      | exact ih _ _ _ h
      | (simp at h; done)
      | (injection h with h; subst h; first
          | rfl
          | exact parseRanges_error _ _ _ _ _ _ (by assumption))

theorem starLoop_error (chunk : List Nat) (last : Bool) (s : List Nat) (e : Error)
    (h : starLoop chunk last s = .error e) : e = Error.ErrBadPattern := by
  induction s with
  | nil => simp [starLoop] at h
  | cons c cs ih =>
    unfold starLoop at h
    repeat' split at h
    all_goals first
      | exact ih h
      | (simp at h; done)
      | (injection h with h; subst h; exact matchChunkAux_error _ _ _ _ _ (by assumption))

theorem matchLoop_error (fuel : Nat) (pattern name : List Nat) (e : Error)
    (h : matchLoop fuel pattern name = .error e) : e = Error.ErrBadPattern := by
  induction fuel generalizing pattern name with
  | zero => simp [matchLoop] at h
  | succ n ih =>
    unfold matchLoop at h
    simp only [] at h
    repeat' split at h
    all_goals first
      | exact ih _ _ h
      | (simp at h; done)
      | (injection h with h; subst h; first
          | exact matchChunkAux_error _ _ _ _ _ (by assumption)
          | exact starLoop_error _ _ _ _ (by assumption))

/-- The only error of `filepath.Match` is `ErrBadPattern`. -/
theorem Match_error (pattern name : String) (e : Error)
    (h : filepath.Match pattern name = .error e) : e = Error.ErrBadPattern :=
  matchLoop_error _ _ _ _ h

end MatchLemmas

/-! ## Lemmas on the log -/

section LogLemmas

open generators

variable {σ : Type}

theorem doCopyCalls_append (l₁ l₂ : List Event) :
    doCopyCalls (l₁ ++ l₂) = doCopyCalls l₁ ++ doCopyCalls l₂ := by
  simp [doCopyCalls, List.filterMap_append]

theorem doCopyCalls_of_none (evs : List Event) (h : ∀ e ∈ evs, e.doCopySrc = none) :
    doCopyCalls evs = [] := by
  induction evs with
  | nil => rfl
  | cons e es ih =>
    have he := h e (List.mem_cons_self _ _)
    have hes : ∀ x ∈ es, x.doCopySrc = none := fun x hx => h x (List.mem_cons_of_mem _ hx)
    have ih' := ih hes
    simp_all [doCopyCalls]

/-- The log after `copyFile` is the log before and entries that are not entries
of `doCopy`. -/
theorem copyFile_log (sys : OS σ) (src dest : String) (defFile : DefinitionFile)
    (w : World σ) :
    ∃ evs, (copyFile sys src dest defFile w).2.log = w.log ++ evs ∧
      ∀ e ∈ evs, e.doCopySrc = none := by
  unfold copyFile
  simp only [World.emit, World.exec]
  split_ifs with h1
  · cases hm : (sys.MkdirAll w.fs (filepath.Dir dest) os.ModePerm).1 with
    | some e =>
      exact ⟨[Event.copyFile src dest, Event.MkdirAll (filepath.Dir dest) os.ModePerm],
        by simp [hm], by simp [Event.doCopySrc]⟩
    | none =>
      simp only [hm]
      split
      · exact ⟨[Event.copyFile src dest, Event.MkdirAll (filepath.Dir dest) os.ModePerm,
          Event.FileCopy src dest], by simp, by simp [Event.doCopySrc]⟩
      · split
        · exact ⟨[Event.copyFile src dest, Event.MkdirAll (filepath.Dir dest) os.ModePerm,
            Event.FileCopy src dest], by simp, by simp [Event.doCopySrc]⟩
        · split
          · exact ⟨[Event.copyFile src dest, Event.MkdirAll (filepath.Dir dest) os.ModePerm,
              Event.FileCopy src dest, Event.updateFileAccess dest defFile], by simp,
              by simp [Event.doCopySrc]⟩
          · exact ⟨[Event.copyFile src dest, Event.MkdirAll (filepath.Dir dest) os.ModePerm,
              Event.FileCopy src dest, Event.updateFileAccess dest defFile], by simp,
              by simp [Event.doCopySrc]⟩
  · cases hm : errOf (sys.Stat w.fs (filepath.Dir dest)) with
    | some e => exact ⟨[Event.copyFile src dest], by simp, by simp [Event.doCopySrc]⟩
    | none =>
      simp only []
      split
      · exact ⟨[Event.copyFile src dest, Event.FileCopy src dest], by simp,
          by simp [Event.doCopySrc]⟩
      · split
        · exact ⟨[Event.copyFile src dest, Event.FileCopy src dest], by simp,
            by simp [Event.doCopySrc]⟩
        · split
          · exact ⟨[Event.copyFile src dest, Event.FileCopy src dest,
              Event.updateFileAccess dest defFile], by simp, by simp [Event.doCopySrc]⟩
          · exact ⟨[Event.copyFile src dest, Event.FileCopy src dest,
              Event.updateFileAccess dest defFile], by simp, by simp [Event.doCopySrc]⟩

/-- The walk function logs no entry of `doCopy`. -/
theorem walkFn_log (sys : OS σ) (srcPath destPath : String) (defFile : DefinitionFile)
    (v : Visit) (w : World σ) :
    ∃ evs, (walkFn sys srcPath destPath defFile v w).2.log = w.log ++ evs ∧
      ∀ e ∈ evs, e.doCopySrc = none := by
  unfold walkFn
  split
  · exact ⟨[], by simp, by simp⟩
  · split
    · exact ⟨[], by simp, by simp⟩
    · rename_i rel _
      simp only []
      split_ifs with h1 h2
      · obtain ⟨evs, hlog, hprim⟩ :=
          copyFile_log sys v.path (filepath.Join [destPath, rel]) defFile w
        refine ⟨evs, ?_, hprim⟩
        split <;> simpa using hlog
      · refine ⟨[Event.MkdirAll (filepath.Join [destPath, rel]) os.ModePerm], ?_, ?_⟩
        · split <;> simp [World.exec]
        · simp [Event.doCopySrc]
      · exact ⟨[Event.Printf "File type of %q not supported, skipping" [v.path]],
          by simp [World.emit], by simp [Event.doCopySrc]⟩

/-- Calls of the walk function one after the other log no entry of `doCopy`. -/
theorem walkAll_log (sys : OS σ) (srcPath destPath : String) (defFile : DefinitionFile)
    (vs : List Visit) (w : World σ) :
    ∃ evs, (walkAll (walkFn sys srcPath destPath defFile) vs w).2.log = w.log ++ evs ∧
      ∀ e ∈ evs, e.doCopySrc = none := by
  induction vs generalizing w with
  | nil => exact ⟨[], by simp [walkAll], by simp⟩
  | cons v vs ih =>
    obtain ⟨evs1, h1, hn1⟩ := walkFn_log sys srcPath destPath defFile v w
    unfold walkAll
    cases hr : walkFn sys srcPath destPath defFile v w with
    | mk r1 w1 =>
      rw [hr] at h1
      cases r1 with
      | some e => exact ⟨evs1, by simpa using h1, hn1⟩
      | none =>
        obtain ⟨evs2, h2, hn2⟩ := ih w1
        refine ⟨evs1 ++ evs2, ?_, ?_⟩
        · simp only [] at h1 ⊢
          rw [h2, h1, List.append_assoc]
        · intro e he
          rcases List.mem_append.mp he with he | he
          · exact hn1 e he
          · exact hn2 e he

end LogLemmas

section WalkLemmas

open generators

variable {σ : Type}

/-- A walk whose first part ends without error goes on with the rest. -/
theorem walkAll_append (fn : Visit → World σ → Option Error × World σ)
    (pre rest : List Visit) (w w1 : World σ) (h : walkAll fn pre w = (none, w1)) :
    walkAll fn (pre ++ rest) w = walkAll fn rest w1 := by
  induction pre generalizing w with
  | nil =>
    simp [walkAll] at h
    subst h
    rfl
  | cons p pre ih =>
    unfold walkAll at h
    cases hr : fn p w with
    | mk r1 w3 =>
      rw [hr] at h
      cases r1 with
      | some e => simp at h
      | none =>
        simp only [] at h
        simp only [List.cons_append, walkAll, hr]
        exact ih w3 h

mutual
/-- Go `filepath.Walk` calls the walk function on the nodes it visits, one
after the other, up to the first error. -/
theorem Walk_flat (fn : Visit → World σ → Option Error × World σ) :
    ∀ (plan : WalkPlan σ) (w : World σ),
      filepath.Walk fn plan w = walkAll fn (walkVisits fn plan w) w
  | .leaf v, w => by
    simp only [filepath.Walk, walkVisits, walkAll]
    cases hr : fn v w with
    | mk r1 w1 => cases r1 <;> rfl
  | .dir path mode kids, w => by
    simp only [filepath.Walk, walkVisits, walkAll]
    cases hr : fn ⟨path, mode, none⟩ w with
    | mk r1 w1 =>
      cases r1 with
      | some e => rfl
      | none => exact walkEntries_flat fn kids w1
theorem walkEntries_flat (fn : Visit → World σ → Option Error × World σ) :
    ∀ (kids : WalkKids σ) (w : World σ),
      filepath.walkEntries fn kids w = walkAll fn (entriesVisits fn kids w) w
  | .nil, w => by simp only [filepath.walkEntries, entriesVisits, walkAll]
  | .cons first rest, w => by
    have ih := Walk_flat fn (first w.fs) w
    simp only [filepath.walkEntries, entriesVisits]
    cases hr : filepath.Walk fn (first w.fs) w with
    | mk r1 w1 =>
      rw [hr] at ih
      cases r1 with
      | some e =>
        simp only [List.append_nil]
        exact ih
      | none =>
        simp only []
        rw [walkAll_append fn _ _ w w1 ih.symm]
        exact walkEntries_flat fn rest w1
end

/-- A walk logs no entry of `doCopy`. -/
theorem Walk_log (sys : OS σ) (srcPath destPath : String) (defFile : DefinitionFile)
    (plan : WalkPlan σ) (w : World σ) :
    ∃ evs, (filepath.Walk (walkFn sys srcPath destPath defFile) plan w).2.log = w.log ++ evs ∧
      ∀ e ∈ evs, e.doCopySrc = none := by
  rw [Walk_flat]
  exact walkAll_log sys srcPath destPath defFile _ w

/-- The log after `copyDir` has no new entry of `doCopy`. -/
theorem copyDir_log (sys : OS σ) (srcPath destPath : String) (defFile : DefinitionFile)
    (w : World σ) :
    ∃ evs, (copyDir sys srcPath destPath defFile w).2.log = w.log ++ evs ∧
      ∀ e ∈ evs, e.doCopySrc = none := by
  obtain ⟨evs, h, hn⟩ := Walk_log sys srcPath destPath defFile
    (sys.Walk (w.emit (Event.copyDir srcPath destPath)).fs srcPath)
    (w.emit (Event.copyDir srcPath destPath))
  refine ⟨Event.copyDir srcPath destPath :: evs, ?_, ?_⟩
  · unfold copyDir
    simp only []
    split <;> simpa [World.emit] using h
  · intro e he
    rcases List.mem_cons.mp he with rfl | he
    · rfl
    · exact hn e he

/-- The walk function on a regular file or symbolic link. -/
theorem walkFn_file (sys : OS σ) (srcPath destPath : String) (defFile : DefinitionFile)
    (v : Visit) (rel : String) (w : World σ) (hv : v.err = none)
    (hrel : filepath.Rel srcPath v.path = .ok rel) (hk : isRegularOrSymlink v.mode) :
    walkFn sys srcPath destPath defFile v w =
      wrapCopy v.path (filepath.Join [destPath, rel])
        (copyFile sys v.path (filepath.Join [destPath, rel]) defFile w) := by
  unfold isRegularOrSymlink at hk
  simp only [walkFn, hv, hrel, hk, if_true, wrapCopy]
  cases (copyFile sys v.path (filepath.Join [destPath, rel]) defFile w).1 <;> rfl

/-- The walk function on a directory. -/
theorem walkFn_dir (sys : OS σ) (srcPath destPath : String) (defFile : DefinitionFile)
    (v : Visit) (rel : String) (w : World σ) (hv : v.err = none)
    (hrel : filepath.Rel srcPath v.path = .ok rel) (hk : isDirectory v.mode) :
    walkFn sys srcPath destPath defFile v w =
      ((sys.MkdirAll w.fs (filepath.Join [destPath, rel]) os.ModePerm).1.map
          (fun e => Error.Wrapf e "Failed to create directory %q"
            [filepath.Join [destPath, rel]]),
        { fs := (sys.MkdirAll w.fs (filepath.Join [destPath, rel]) os.ModePerm).2,
          log := w.log ++ [Event.MkdirAll (filepath.Join [destPath, rel]) os.ModePerm] }) := by
  have hn : ¬ (os.ModeDir = 0 ∨ os.ModeDir = os.ModeSymlink) := by decide
  unfold isDirectory at hk
  simp only [walkFn, hv, hrel, hk, hn, if_true, if_false, World.exec]
  cases (sys.MkdirAll w.fs (filepath.Join [destPath, rel]) os.ModePerm).1 <;> rfl

/-- The walk function on a node of any other kind. -/
theorem walkFn_other (sys : OS σ) (srcPath destPath : String) (defFile : DefinitionFile)
    (v : Visit) (rel : String) (w : World σ) (hv : v.err = none)
    (hrel : filepath.Rel srcPath v.path = .ok rel) (hk : isUnsupported v.mode) :
    walkFn sys srcPath destPath defFile v w =
      (none, w.emit (Event.Printf "File type of %q not supported, skipping" [v.path])) := by
  unfold isUnsupported isRegularOrSymlink isDirectory at hk
  simp only [walkFn, hv, hrel, hk.1, hk.2, if_false]

end WalkLemmas

section CallLemmas

open generators

variable {σ : Type}

/-- The first case of `doCopy`: a regular file or a symbolic link. -/
theorem doCopy_file (sys : OS σ) (srcPath destPath : String) (defFile : DefinitionFile)
    (w : World σ) (mode : Nat) (hstat : sys.Stat w.fs srcPath = .ok mode)
    (hk : isRegularOrSymlink mode) :
    doCopy sys srcPath destPath defFile w =
      wrapCopy srcPath (fileDest srcPath destPath defFile)
        (copyFile sys srcPath (fileDest srcPath destPath defFile) defFile
          (w.emit (Event.doCopy srcPath destPath defFile))) := by
  unfold isRegularOrSymlink at hk
  simp only [doCopy, World.emit, hstat, hk, if_true, fileDest, wrapCopy]
  split <;> rename_i h <;> simp [h]

/-- The second case of `doCopy`: a directory. -/
theorem doCopy_dir (sys : OS σ) (srcPath destPath : String) (defFile : DefinitionFile)
    (w : World σ) (mode : Nat) (hstat : sys.Stat w.fs srcPath = .ok mode)
    (hk : isDirectory mode) :
    doCopy sys srcPath destPath defFile w =
      wrapCopy srcPath destPath
        (copyDir sys srcPath destPath defFile
          (w.emit (Event.doCopy srcPath destPath defFile))) := by
  have hn : ¬ (os.ModeDir = 0 ∨ os.ModeDir = os.ModeSymlink) := by decide
  unfold isDirectory at hk
  simp only [doCopy, World.emit, hstat, hk, hn, if_true, if_false, wrapCopy]
  split <;> rename_i h <;> simp [h]

/-- The default case of `doCopy`: any other kind. -/
theorem doCopy_other (sys : OS σ) (srcPath destPath : String) (defFile : DefinitionFile)
    (w : World σ) (mode : Nat) (hstat : sys.Stat w.fs srcPath = .ok mode)
    (hk : isUnsupported mode) :
    doCopy sys srcPath destPath defFile w =
      (some (Error.Errorf "File type of %q not supported" [srcPath]),
        w.emit (Event.doCopy srcPath destPath defFile)) := by
  unfold isUnsupported isRegularOrSymlink isDirectory at hk
  simp only [doCopy, World.emit, hstat, hk.1, hk.2, if_false]

/-- The failure of the first step of `doCopy`. -/
theorem doCopy_nostat (sys : OS σ) (srcPath destPath : String) (defFile : DefinitionFile)
    (w : World σ) (e : Error) (hstat : sys.Stat w.fs srcPath = .error e) :
    doCopy sys srcPath destPath defFile w =
      (some (Error.Wrapf e "Failed to stat file %q" [srcPath]),
        w.emit (Event.doCopy srcPath destPath defFile)) := by
  simp only [doCopy, World.emit, hstat]

theorem kind_cases (mode : Nat) :
    isRegularOrSymlink mode ∨ isDirectory mode ∨ isUnsupported mode := by
  unfold isUnsupported
  by_cases h1 : isRegularOrSymlink mode
  · exact Or.inl h1
  · by_cases h2 : isDirectory mode
    · exact Or.inr (Or.inl h2)
    · exact Or.inr (Or.inr ⟨h1, h2⟩)

/-- One call of `doCopy` logs exactly one entry of `doCopy`, its own. -/
theorem doCopy_calls (sys : OS σ) (srcPath destPath : String) (defFile : DefinitionFile)
    (w : World σ) :
    doCopyCalls (doCopy sys srcPath destPath defFile w).2.log =
      doCopyCalls w.log ++ [srcPath] := by
  cases hstat : sys.Stat w.fs srcPath with
  | error e =>
    rw [doCopy_nostat sys srcPath destPath defFile w e hstat]
    simp [World.emit, doCopyCalls_append, doCopyCalls, Event.doCopySrc]
  | ok mode =>
    rcases kind_cases mode with hk | hk | hk
    · rw [doCopy_file sys srcPath destPath defFile w mode hstat hk]
      obtain ⟨evs, hlog, hn⟩ := copyFile_log sys srcPath
        (fileDest srcPath destPath defFile) defFile
        (w.emit (Event.doCopy srcPath destPath defFile))
      simp only [wrapCopy]
      rw [hlog]
      have h0 := doCopyCalls_of_none evs hn
      simp [World.emit, doCopyCalls_append, doCopyCalls, Event.doCopySrc] at h0 ⊢
      exact h0
    · rw [doCopy_dir sys srcPath destPath defFile w mode hstat hk]
      obtain ⟨evs, hlog, hn⟩ := copyDir_log sys srcPath destPath defFile
        (w.emit (Event.doCopy srcPath destPath defFile))
      simp only [wrapCopy]
      rw [hlog]
      have h0 := doCopyCalls_of_none evs hn
      simp [World.emit, doCopyCalls_append, doCopyCalls, Event.doCopySrc] at h0 ⊢
      exact h0
    · rw [doCopy_other sys srcPath destPath defFile w mode hstat hk]
      simp [World.emit, doCopyCalls_append, doCopyCalls, Event.doCopySrc]

/-- A run of the copy loop that ends without error has entered `doCopy` once
for every file, in order. -/
theorem copyEach_calls (sys : OS σ) (destPath : String) (defFile : DefinitionFile)
    (files : List String) (w w1 : World σ)
    (h : copyEach sys destPath defFile files w = (none, w1)) :
    doCopyCalls w1.log = doCopyCalls w.log ++ files := by
  induction files generalizing w with
  | nil => simp [copyEach] at h; simp [← h]
  | cons f rest ih =>
    unfold copyEach at h
    have hc := doCopy_calls sys f destPath defFile w
    cases hr : doCopy sys f destPath defFile w with
    | mk r1 w2 =>
      rw [hr] at h hc
      cases r1 with
      | some e => simp at h
      | none =>
        simp only [] at h hc
        rw [ih w2 h, hc]
        simp

/-- The copy loop stops at the first file whose copy fails. -/
theorem copyEach_break (sys : OS σ) (destPath : String) (defFile : DefinitionFile)
    (pre post : List String) (f : String) (w w1 w2 : World σ) (e : Error)
    (hpre : copyEach sys destPath defFile pre w = (none, w1))
    (hf : doCopy sys f destPath defFile w1 = (some e, w2)) :
    copyEach sys destPath defFile (pre ++ f :: post) w = (some e, w2) := by
  induction pre generalizing w with
  | nil =>
    simp [copyEach] at hpre
    subst hpre
    simp [copyEach, hf]
  | cons p pre ih =>
    unfold copyEach at hpre
    cases hr : doCopy sys p destPath defFile w with
    | mk r1 w3 =>
      rw [hr] at hpre
      cases r1 with
      | some e1 => simp at hpre
      | none =>
        simp only [] at hpre
        simp only [List.cons_append, copyEach, hr]
        exact ih w3 hpre

end CallLemmas

/-! ## The generator against the placement rules -/

section RefineLemmas

open generators

variable {σ : Type}

/-- A result that refines an outcome has that outcome. -/
theorem Refines_outcome_eq {w : World σ} {r : Option Error × World σ} {o : spec.Outcome σ}
    (h : Refines w r o) : outcome w r = o := by
  obtain ⟨h1, h2, evs, h3, h4⟩ := h
  cases o
  simp only [outcome, h3, List.drop_left] at *
  simp [h1, h2, h4]

/-- An entry of the generator's own logged first does not count. -/
theorem Refines_emit {w : World σ} {e : Event} {r : Option Error × World σ}
    {o : spec.Outcome σ} (he : e.isPrim = false) (h : Refines (w.emit e) r o) :
    Refines w r o := by
  obtain ⟨h1, h2, evs, h3, h4⟩ := h
  refine ⟨h1, h2, e :: evs, ?_, ?_⟩
  · simpa [World.emit] using h3
  · simpa [List.filter_cons, he] using h4

/-- Changing the error of a result changes nothing of its outcome. -/
theorem Refines_mapErr {w : World σ} {r r' : Option Error × World σ} {o : spec.Outcome σ}
    (h : Refines w r o) (h1 : r'.1.isNone = r.1.isNone) (h2 : r'.2 = r.2) :
    Refines w r' o := by
  obtain ⟨a, b, c⟩ := h
  exact ⟨by rw [h1, a], by rw [h2, b], by rw [h2]; exact c⟩

/-- Two steps one after the other, the second taken when the first succeeds. -/
theorem Refines_seq {w : World σ} {r1 r : Option Error × World σ} {o1 o2 : spec.Outcome σ}
    (h1 : Refines w r1 o1)
    (hfail : r1.1.isNone = false → r.1.isNone = false ∧ r.2 = r1.2)
    (hok : r1.1.isNone = true → Refines r1.2 r o2) :
    Refines w r (if o1.ok then ⟨o2.ok, o2.fs, o1.calls ++ o2.calls⟩ else o1) := by
  obtain ⟨a, b, evs, c, d⟩ := h1
  cases hr : r1.1.isNone with
  | false =>
    obtain ⟨f1, f2⟩ := hfail hr
    have ho : o1.ok = false := by rw [← a, hr]
    simp only [ho, Bool.false_eq_true, if_false]
    exact ⟨by rw [f1, ho], by rw [f2, b], evs, by rw [f2, c], d⟩
  | true =>
    obtain ⟨a2, b2, evs2, c2, d2⟩ := hok hr
    have ho : o1.ok = true := by rw [← a, hr]
    simp only [ho, if_true]
    refine ⟨a2, b2, evs ++ evs2, ?_, ?_⟩
    · rw [c2, c, List.append_assoc]
    · rw [List.filter_append, d, d2]

/-- Wrapping the error of a copy keeps whether there is one. -/
theorem wrapCopy_isNone (src dest : String) (r : Option Error × World σ) :
    (wrapCopy src dest r).1.isNone = r.1.isNone := by
  cases h : r.1 <;> simp [wrapCopy, h]

/-- `copyFile` places the file as the specification says. -/
theorem copyFile_refines (sys : OS σ) (src dest : String) (defFile : DefinitionFile)
    (w : World σ) :
    Refines w (copyFile sys src dest defFile w) (spec.placeFile sys src dest defFile w.fs) := by
  apply Refines_emit (e := Event.copyFile src dest) rfl
  unfold Refines copyFile spec.placeFile spec.Outcome.andThen spec.call
  simp only [World.emit, World.exec, errOf]
  cases hs : sys.Stat w.fs (filepath.Dir dest) with
  | ok m =>
    simp only [os.IsNotExist, Bool.false_eq_true, if_false, if_true]
    cases hc : (sys.FileCopy w.fs src dest).1 with
    | some e => simp [hc, Event.isPrim]
    | none =>
      simp only [hc, Option.isNone_none, if_true]
      cases ho : sys.Open (sys.FileCopy w.fs src dest).2 dest with
      | some e => simp [Event.isPrim]
      | none =>
        simp only []
        cases hu : (sys.updateFileAccess (sys.FileCopy w.fs src dest).2 dest defFile).1 with
        | some e => simp [Event.isPrim]
        | none => simp [Event.isPrim]
  | error e0 =>
    simp only []
    cases hne : os.IsNotExist (some e0) with
    | false => simp [Event.isPrim]
    | true =>
      simp only [if_true]
      cases hm : (sys.MkdirAll w.fs (filepath.Dir dest) os.ModePerm).1 with
      | some e => simp [hm, Event.isPrim]
      | none =>
        simp only [hm, Option.isNone_none, if_true]
        cases hc : (sys.FileCopy (sys.MkdirAll w.fs (filepath.Dir dest) os.ModePerm).2
            src dest).1 with
        | some e => simp [hc, Event.isPrim]
        | none =>
          simp only [hc, Option.isNone_none, if_true]
          cases ho : sys.Open (sys.FileCopy (sys.MkdirAll w.fs (filepath.Dir dest)
              os.ModePerm).2 src dest).2 dest with
          | some e => simp [Event.isPrim]
          | none =>
            simp only []
            cases hu : (sys.updateFileAccess (sys.FileCopy (sys.MkdirAll w.fs
                (filepath.Dir dest) os.ModePerm).2 src dest).2 dest defFile).1 with
            | some e => simp [Event.isPrim]
            | none => simp [Event.isPrim]

/-- The walk function mirrors a node as the specification says. -/
theorem walkFn_refines (sys : OS σ) (srcPath destPath : String) (defFile : DefinitionFile)
    (v : Visit) (w : World σ) :
    Refines w (walkFn sys srcPath destPath defFile v w)
      (spec.mirrorNode sys srcPath destPath defFile v w.fs) := by
  cases hv : v.err with
  | some e =>
    simp only [walkFn, spec.mirrorNode, hv]
    exact ⟨rfl, rfl, [], by simp, rfl⟩
  | none =>
    cases hrel : filepath.Rel srcPath v.path with
    | error e =>
      simp only [walkFn, spec.mirrorNode, hv, hrel]
      exact ⟨rfl, rfl, [], by simp, rfl⟩
    | ok rel =>
      rcases kind_cases v.mode with hk | hk | hk
      · rw [walkFn_file sys srcPath destPath defFile v rel w hv hrel hk]
        simp only [spec.mirrorNode, hv, hrel, hk, if_true]
        exact Refines_mapErr (copyFile_refines sys v.path _ defFile w) (wrapCopy_isNone _ _ _) rfl
      · rw [walkFn_dir sys srcPath destPath defFile v rel w hv hrel hk]
        have hn : ¬ isRegularOrSymlink v.mode := by
          unfold isRegularOrSymlink
          unfold isDirectory at hk
          rw [hk]
          decide
        simp only [spec.mirrorNode, hv, hrel, hn, hk, if_true, if_false, spec.call]
        refine ⟨?_, rfl, [Event.MkdirAll (filepath.Join [destPath, rel]) os.ModePerm],
          rfl, rfl⟩
        cases (sys.MkdirAll w.fs (filepath.Join [destPath, rel]) os.ModePerm).1 <;> rfl
      · rw [walkFn_other sys srcPath destPath defFile v rel w hv hrel hk]
        simp only [spec.mirrorNode, hv, hrel, hk.1, hk.2, if_false]
        exact ⟨rfl, rfl, [Event.Printf "File type of %q not supported, skipping" [v.path]],
          rfl, rfl⟩

mutual
/-- A walk mirrors the tree as the specification says. -/
theorem Walk_refines (sys : OS σ) (srcPath destPath : String) (defFile : DefinitionFile) :
    ∀ (plan : WalkPlan σ) (w : World σ),
      Refines w (filepath.Walk (walkFn sys srcPath destPath defFile) plan w)
        (spec.mirror sys srcPath destPath defFile plan w.fs)
  | .leaf v, w => by
    simp only [filepath.Walk, spec.mirror]
    exact walkFn_refines sys srcPath destPath defFile v w
  | .dir path mode kids, w => by
    have h1 := walkFn_refines sys srcPath destPath defFile ⟨path, mode, none⟩ w
    simp only [filepath.Walk, spec.mirror]
    refine Refines_seq h1 ?_ ?_
    · intro hf
      cases hr : walkFn sys srcPath destPath defFile ⟨path, mode, none⟩ w with
      | mk r1 w1 =>
        rw [hr] at hf
        cases r1 with
        | none => simp at hf
        | some e => exact ⟨rfl, rfl⟩
    · intro hs
      cases hr : walkFn sys srcPath destPath defFile ⟨path, mode, none⟩ w with
      | mk r1 w1 =>
        rw [hr] at hs
        cases r1 with
        | some e => simp at hs
        | none =>
          have hfs : (spec.mirrorNode sys srcPath destPath defFile ⟨path, mode, none⟩ w.fs).fs =
              w1.fs := by
            rw [← h1.2.1, hr]
          simp only [hfs]
          exact walkEntries_refines sys srcPath destPath defFile kids w1
/-- The loop over the entries of a directory mirrors them as the specification
says. -/
theorem walkEntries_refines (sys : OS σ) (srcPath destPath : String)
    (defFile : DefinitionFile) :
    ∀ (kids : WalkKids σ) (w : World σ),
      Refines w (filepath.walkEntries (walkFn sys srcPath destPath defFile) kids w)
        (spec.mirrorEntries sys srcPath destPath defFile kids w.fs)
  | .nil, w => by
    simp only [filepath.walkEntries, spec.mirrorEntries]
    exact ⟨rfl, rfl, [], by simp, rfl⟩
  | .cons first rest, w => by
    have h1 := Walk_refines sys srcPath destPath defFile (first w.fs) w
    simp only [filepath.walkEntries, spec.mirrorEntries]
    refine Refines_seq h1 ?_ ?_
    · intro hf
      cases hr : filepath.Walk (walkFn sys srcPath destPath defFile) (first w.fs) w with
      | mk r1 w1 =>
        rw [hr] at hf
        cases r1 with
        | none => simp at hf
        | some e => exact ⟨rfl, rfl⟩
    · intro hs
      cases hr : filepath.Walk (walkFn sys srcPath destPath defFile) (first w.fs) w with
      | mk r1 w1 =>
        rw [hr] at hs
        cases r1 with
        | some e => simp at hs
        | none =>
          have hfs : (spec.mirror sys srcPath destPath defFile (first w.fs) w.fs).fs =
              w1.fs := by
            rw [← h1.2.1, hr]
          simp only [hfs]
          exact walkEntries_refines sys srcPath destPath defFile rest w1
end

/-- `copyDir` mirrors the tree as the specification says. -/
theorem copyDir_refines (sys : OS σ) (srcPath destPath : String) (defFile : DefinitionFile)
    (w : World σ) :
    Refines w (copyDir sys srcPath destPath defFile w)
      (spec.mirror sys srcPath destPath defFile (sys.Walk w.fs srcPath) w.fs) := by
  apply Refines_emit (e := Event.copyDir srcPath destPath) rfl
  have h := Walk_refines sys srcPath destPath defFile
    (sys.Walk (w.emit (Event.copyDir srcPath destPath)).fs srcPath)
    (w.emit (Event.copyDir srcPath destPath))
  refine Refines_mapErr h ?_ ?_
  · simp only [copyDir]
    split <;> rename_i hh <;> simp [hh]
  · simp only [copyDir]
    split <;> rfl

/-- `doCopy` places its source as the specification says. -/
theorem doCopy_refines (sys : OS σ) (srcPath destPath : String) (defFile : DefinitionFile)
    (w : World σ) :
    Refines w (doCopy sys srcPath destPath defFile w)
      (spec.place sys srcPath destPath defFile w.fs) := by
  apply Refines_emit (e := Event.doCopy srcPath destPath defFile) rfl
  cases hstat : sys.Stat w.fs srcPath with
  | error e =>
    rw [doCopy_nostat sys srcPath destPath defFile w e hstat]
    simp only [spec.place, hstat]
    exact ⟨rfl, rfl, [], by simp, rfl⟩
  | ok mode =>
    rcases kind_cases mode with hk | hk | hk
    · rw [doCopy_file sys srcPath destPath defFile w mode hstat hk]
      simp only [spec.place, hstat, hk, if_true]
      exact Refines_mapErr (copyFile_refines sys srcPath (fileDest srcPath destPath defFile)
        defFile (w.emit (Event.doCopy srcPath destPath defFile))) (wrapCopy_isNone _ _ _) rfl
    · rw [doCopy_dir sys srcPath destPath defFile w mode hstat hk]
      have hn : ¬ isRegularOrSymlink mode := by
        unfold isRegularOrSymlink
        unfold isDirectory at hk
        rw [hk]
        decide
      simp only [spec.place, hstat, hn, hk, if_true, if_false]
      exact Refines_mapErr (copyDir_refines sys srcPath destPath defFile
        (w.emit (Event.doCopy srcPath destPath defFile))) (wrapCopy_isNone _ _ _) rfl
    · rw [doCopy_other sys srcPath destPath defFile w mode hstat hk]
      simp only [spec.place, hstat, hk.1, hk.2, if_false]
      exact ⟨rfl, rfl, [], by simp, rfl⟩

/-- The copy loop places the matches as the specification says. -/
theorem copyEach_refines (sys : OS σ) (destPath : String) (defFile : DefinitionFile)
    (files : List String) (w : World σ) :
    Refines w (copyEach sys destPath defFile files w)
      (spec.placeAll sys destPath defFile files w.fs) := by
  induction files generalizing w with
  | nil =>
    simp only [copyEach, spec.placeAll]
    exact ⟨rfl, rfl, [], by simp, rfl⟩
  | cons f rest ih =>
    have h1 := doCopy_refines sys f destPath defFile w
    simp only [copyEach, spec.placeAll]
    refine Refines_seq h1 ?_ ?_
    · intro hf
      cases hr : doCopy sys f destPath defFile w with
      | mk r1 w1 =>
        rw [hr] at hf
        cases r1 with
        | none => simp at hf
        | some e => exact ⟨rfl, rfl⟩
    · intro hs
      cases hr : doCopy sys f destPath defFile w with
      | mk r1 w1 =>
        rw [hr] at hs
        cases r1 with
        | some e => simp at hs
        | none =>
          have hfs : (spec.place sys f destPath defFile w.fs).fs = w1.fs := by
            rw [← h1.2.1, hr]
          simp only [hfs]
          exact ih w1

/-- The end of `Run` changes nothing of the outcome of the copy. -/
theorem finish_refines {w : World σ} {r : Option Error × World σ} {o : spec.Outcome σ}
    (g : copy) (h : Refines w r o) : Refines w ((finish g r).1, (finish g r).2.2) o := by
  refine Refines_mapErr h ?_ ?_
  · simp only [finish]
    split <;> rename_i hh <;> simp [hh]
  · simp only [finish]
    split <;> rfl

/-- The calls of `lxd.FileCopy` among the calls of a file placement: at most
one, of the source to the destination, and exactly that one on success. -/
theorem placeFile_fileCopyCalls (sys : OS σ) (src dest : String) (defFile : DefinitionFile)
    (fs : σ) :
    (∀ p ∈ fileCopyCalls (spec.placeFile sys src dest defFile fs).calls, p = (src, dest)) ∧
      ((spec.placeFile sys src dest defFile fs).ok = true →
        fileCopyCalls (spec.placeFile sys src dest defFile fs).calls = [(src, dest)]) := by
  unfold spec.placeFile spec.Outcome.andThen spec.call
  simp only []
  repeat' split
  all_goals simp_all [fileCopyCalls, Event.fileCopyPair]

end RefineLemmas

section RunLemmas

open generators

variable {σ : Type}

/-- A path with a separator appended ends in the separator. -/
theorem HasSuffix_append_sep (p : String) : strings.HasSuffix (p ++ "/") "/" = true := by
  have hd : (p ++ "/").data = p.data ++ ['/'] := rfl
  have hs : ("/" : String).data = ['/'] := rfl
  simp only [strings.HasSuffix, hd, hs, List.isSuffixOf_iff_suffix]
  exact List.suffix_append _ _

/-- Every entry the listing loop collects was in the list before or is the
joined path of a listed name that matches the pattern. -/
theorem matchEntries_mem (srcPath : String) (names acc files : List String)
    (h : matchEntries srcPath names acc = .ok files) :
    ∀ f ∈ files, f ∈ acc ∨
      ∃ n ∈ names, f = filepath.Join [filepath.Dir srcPath, n] ∧
        filepath.Match srcPath f = .ok true := by
  induction names generalizing acc with
  | nil =>
    simp [matchEntries] at h
    subst h
    intro f hf
    exact Or.inl hf
  | cons n rest ih =>
    unfold matchEntries at h
    cases hm : filepath.Match srcPath (filepath.Join [filepath.Dir srcPath, n]) with
    | error e => simp [hm] at h
    | ok m =>
      simp only [hm] at h
      intro f hf
      cases m with
      | true =>
        simp only [if_true] at h
        rcases ih _ h f hf with hacc | ⟨k, hk, hfk, hmk⟩
        · rcases List.mem_append.mp hacc with hacc | hnew
          · exact Or.inl hacc
          · simp at hnew
            subst hnew
            exact Or.inr ⟨n, List.mem_cons_self _ _, rfl, hm⟩
        · exact Or.inr ⟨k, List.mem_cons_of_mem _ hk, hfk, hmk⟩
      | false =>
        simp only [Bool.false_eq_true, if_false] at h
        rcases ih _ h f hf with hacc | ⟨k, hk, hfk, hmk⟩
        · exact Or.inl hacc
        · exact Or.inr ⟨k, List.mem_cons_of_mem _ hk, hfk, hmk⟩

/-- The many-matches branch of `Run`. -/
theorem Run_many (sys : OS σ) (g : copy) (w : World σ) (names files : List String)
    (hread : sys.ReadDir w.fs (filepath.Dir g.defFile.Source) = .ok names)
    (hmatch : matchEntries g.defFile.Source names [] = .ok files)
    (hlen : 2 ≤ files.length) :
    Run sys g w = finish (withSeparator g)
      (copyEach sys (destPathOf g) (withSeparator g).defFile files w) := by
  obtain ⟨n, hn⟩ : ∃ n, files.length = n + 2 := ⟨files.length - 2, by omega⟩
  simp only [Run, hread, hmatch, hn, withSeparator]

/-- The single-match branch of `Run`. -/
theorem Run_one (sys : OS σ) (g : copy) (w : World σ) (names files : List String)
    (hread : sys.ReadDir w.fs (filepath.Dir g.defFile.Source) = .ok names)
    (hmatch : matchEntries g.defFile.Source names [] = .ok files)
    (hlen : files.length = 1) :
    Run sys g w = finish g (doCopy sys g.defFile.Source (destPathOf g) g.defFile w) := by
  simp only [Run, hread, hmatch, hlen]

end RunLemmas

section CleanLemmas

open filepath

theorem cleanElems_eq_foldl (rooted : Bool) (es acc : List (List Char)) :
    cleanElems rooted es acc = (es.foldl (cleanStep rooted) acc).reverse := by
  induction es generalizing acc with
  | nil => simp [cleanElems]
  | cons e es ih =>
    simp only [List.foldl_cons]
    unfold cleanElems
    by_cases h1 : e = [] ∨ e = ['.']
    · simp only [h1, if_true, cleanStep]
      exact ih acc
    · by_cases h2 : e = ['.', '.']
      · simp only [h1, h2, if_true, if_false, cleanStep]
        cases acc with
        | nil =>
          cases rooted
          · simpa using ih [['.', '.']]
          · simpa using ih []
        | cons top rest =>
          by_cases h3 : top = ['.', '.']
          · simp only [h3, if_true]
            exact ih _
          · simp only [h3, if_false]
            exact ih _
      · simp only [h1, h2, if_false, cleanStep]
        exact ih _

theorem splitSep_ne_nil (l : List Char) : splitSep l ≠ [] := by
  cases l with
  | nil => simp [splitSep]
  | cons c cs =>
    unfold splitSep
    split
    · simp
    · split <;> simp

theorem splitSep_cons_sep (rest : List Char) :
    splitSep (Separator :: rest) = [] :: splitSep rest := by
  rw [splitSep]
  split
  · rename_i h
    exact absurd h (splitSep_ne_nil rest)
  · rename_i x xs h
    simp [h]

theorem splitSep_cons_ne (c : Char) (hc : c ≠ Separator) (rest : List Char) :
    splitSep (c :: rest) = (c :: (splitSep rest).headD []) :: (splitSep rest).tail := by
  rw [splitSep]
  split
  · rename_i h
    exact absurd h (splitSep_ne_nil rest)
  · rename_i x xs h
    simp [h, hc]

/-- An element without separator in front of a separator is the first element. -/
theorem splitSep_elem_sep (x rest : List Char) (hx : Separator ∉ x) :
    splitSep (x ++ Separator :: rest) = x :: splitSep rest := by
  induction x with
  | nil => simpa using splitSep_cons_sep rest
  | cons c cs ih =>
    have hc : c ≠ Separator := fun h => hx (by simp [h])
    have hcs : Separator ∉ cs := fun h => hx (List.mem_cons_of_mem _ h)
    rw [List.cons_append, splitSep_cons_ne c hc, ih hcs]
    simp

theorem splitSep_sepfree (x : List Char) (hx : Separator ∉ x) : splitSep x = [x] := by
  induction x with
  | nil => simp [splitSep]
  | cons c cs ih =>
    have hc : c ≠ Separator := fun h => hx (by simp [h])
    have hcs : Separator ∉ cs := fun h => hx (List.mem_cons_of_mem _ h)
    rw [splitSep_cons_ne c hc, ih hcs]
    simp

/-- A name without separator after a separator is the last element. -/
theorem splitSep_append_name (p n : List Char) (hn : Separator ∉ n) :
    splitSep (p ++ Separator :: n) = splitSep p ++ [n] := by
  induction p with
  | nil =>
    simp only [List.nil_append]
    rw [splitSep_cons_sep, splitSep_sepfree n hn]
    simp [splitSep]
  | cons c cs ih =>
    by_cases hc : c = Separator
    · subst hc
      rw [List.cons_append, splitSep_cons_sep, splitSep_cons_sep, ih]
      simp
    · rw [List.cons_append, splitSep_cons_ne c hc, splitSep_cons_ne c hc, ih]
      have hne := splitSep_ne_nil cs
      cases hs : splitSep cs with
      | nil => exact absurd hs hne
      | cons x xs => simp

theorem splitSep_joinSep (E : List (List Char)) (hne : E ≠ [])
    (hfree : ∀ e ∈ E, Separator ∉ e) : splitSep (joinSep E) = E := by
  induction E with
  | nil => exact absurd rfl hne
  | cons x rest ih =>
    cases rest with
    | nil =>
      simp only [joinSep]
      exact splitSep_sepfree x (hfree x (List.mem_cons_self _ _))
    | cons y ys =>
      simp only [joinSep]
      rw [splitSep_elem_sep x _ (hfree x (List.mem_cons_self _ _))]
      rw [ih (by simp) (fun e he => hfree e (List.mem_cons_of_mem _ he))]

theorem splitSep_mem_sepfree (l : List Char) : ∀ e ∈ splitSep l, Separator ∉ e := by
  induction l with
  | nil => simp [splitSep]
  | cons c cs ih =>
    have hne := splitSep_ne_nil cs
    by_cases hc : c = Separator
    · subst hc
      rw [splitSep_cons_sep]
      intro e he
      rcases List.mem_cons.mp he with rfl | he
      · simp
      · exact ih e he
    · rw [splitSep_cons_ne c hc]
      cases hs : splitSep cs with
      | nil => exact absurd hs hne
      | cons x xs =>
        rw [hs] at ih
        intro e he
        simp only [List.headD_cons, List.tail_cons] at he
        rcases List.mem_cons.mp he with rfl | he
        · intro hmem
          rcases List.mem_cons.mp hmem with h | h
          · exact hc h.symm
          · exact ih x (List.mem_cons_self _ _) h
        · exact ih e (List.mem_cons_of_mem _ he)

end CleanLemmas

section NormLemmas

open filepath

theorem validElem_ne_dotdot (e : List Char) (h : validElem e) : e ≠ ['.', '.'] := h.2.2.2

theorem dotdot_sepfree : Separator ∉ ['.', '.'] := by decide

theorem NormAcc_nil (rooted : Bool) : NormAcc rooted [] :=
  ⟨[], 0, by simp, by simp, fun _ => rfl⟩

/-- Every element of a cleaned list is non-empty, without separator and not `.`. -/
theorem NormAcc_mem (rooted : Bool) (acc : List (List Char)) (h : NormAcc rooted acc) :
    ∀ e ∈ acc, e ≠ [] ∧ Separator ∉ e ∧ e ≠ ['.'] := by
  obtain ⟨V, k, rfl, hV, _⟩ := h
  intro e he
  rcases List.mem_append.mp he with he | he
  · exact ⟨(hV e he).1, (hV e he).2.1, (hV e he).2.2.1⟩
  · have := List.eq_of_mem_replicate he
    subst this
    exact ⟨by decide, by decide, by decide⟩

theorem NormAcc_push (rooted : Bool) (acc : List (List Char)) (e : List Char)
    (h : NormAcc rooted acc) (he : validElem e) : NormAcc rooted (e :: acc) := by
  obtain ⟨V, k, rfl, hV, hk⟩ := h
  refine ⟨e :: V, k, by simp, ?_, hk⟩
  intro x hx
  rcases List.mem_cons.mp hx with rfl | hx
  · exact he
  · exact hV x hx

/-- One step of the element loop keeps the shape of the output. -/
theorem cleanStep_norm (rooted : Bool) (acc : List (List Char)) (e : List Char)
    (hacc : NormAcc rooted acc) (he : Separator ∉ e) : NormAcc rooted (cleanStep rooted acc e) := by
  unfold cleanStep
  by_cases h1 : e = [] ∨ e = ['.']
  · simpa [h1] using hacc
  · simp only [h1, if_false]
    by_cases h2 : e = ['.', '.']
    · simp only [h2, if_true]
      obtain ⟨V, k, hacc, hV, hk⟩ := hacc
      cases acc with
      | nil =>
        cases rooted with
        | true => simpa using NormAcc_nil true
        | false => exact ⟨[], 1, by simp, by simp, by simp⟩
      | cons top rest =>
        by_cases h3 : top = ['.', '.']
        · simp only [h3, if_true]
          cases V with
          | nil =>
            simp only [List.nil_append] at hacc
            refine ⟨[], k + 1, ?_, by simp, ?_⟩
            · rw [h3] at hacc
              simp only [List.nil_append, List.replicate_succ]
              rw [hacc]
            · intro hr
              have := hk hr
              subst this
              simp at hacc
          | cons v V' =>
            simp only [List.cons_append, List.cons.injEq] at hacc
            have := hV v (List.mem_cons_self _ _)
            exact absurd (hacc.1 ▸ h3) (validElem_ne_dotdot v this)
        · simp only [h3, if_false]
          cases V with
          | nil =>
            simp only [List.nil_append] at hacc
            cases k with
            | zero => simp at hacc
            | succ k =>
              simp only [List.replicate_succ, List.cons.injEq] at hacc
              exact absurd hacc.1 h3
          | cons v V' =>
            simp only [List.cons_append, List.cons.injEq] at hacc
            exact ⟨V', k, hacc.2, fun x hx => hV x (List.mem_cons_of_mem _ hx), hk⟩
    · simp only [h2, if_false]
      have hv : validElem e := by
        refine ⟨fun h => h1 (Or.inl h), he, fun h => h1 (Or.inr h), h2⟩
      exact NormAcc_push rooted acc e hacc hv

theorem foldl_cleanStep_norm (rooted : Bool) (es acc : List (List Char))
    (hacc : NormAcc rooted acc) (hes : ∀ e ∈ es, Separator ∉ e) :
    NormAcc rooted (es.foldl (cleanStep rooted) acc) := by
  induction es generalizing acc with
  | nil => simpa using hacc
  | cons e es ih =>
    simp only [List.foldl_cons]
    exact ih _ (cleanStep_norm rooted acc e hacc (hes e (List.mem_cons_self _ _)))
      (fun x hx => hes x (List.mem_cons_of_mem _ hx))

/-- The cleaned elements of any path have the shape of a cleaned list. -/
theorem normElems_norm (p : List Char) : NormAcc (isRooted p) (normElems p).reverse := by
  unfold normElems
  rw [cleanElems_eq_foldl, List.reverse_reverse]
  exact foldl_cleanStep_norm _ _ _ (NormAcc_nil _) (splitSep_mem_sepfree p)

theorem cleanStep_valid (rooted : Bool) (acc : List (List Char)) (e : List Char)
    (he : validElem e) : cleanStep rooted acc e = e :: acc := by
  obtain ⟨h1, _, h3, h4⟩ := he
  simp [cleanStep, h1, h3, h4]

theorem foldl_cleanStep_valid (rooted : Bool) (L acc : List (List Char))
    (hL : ∀ e ∈ L, validElem e) : L.foldl (cleanStep rooted) acc = L.reverse ++ acc := by
  induction L generalizing acc with
  | nil => simp
  | cons e L ih =>
    simp only [List.foldl_cons, List.reverse_cons, List.append_assoc, List.singleton_append]
    rw [cleanStep_valid rooted acc e (hL e (List.mem_cons_self _ _))]
    exact ih _ (fun x hx => hL x (List.mem_cons_of_mem _ hx))

theorem foldl_cleanStep_dotdot (j k : Nat) :
    (List.replicate k ['.', '.']).foldl (cleanStep false) (List.replicate j ['.', '.']) =
      List.replicate (j + k) ['.', '.'] := by
  induction k generalizing j with
  | zero => simp
  | succ k ih =>
    simp only [List.replicate_succ, List.foldl_cons]
    have hstep : cleanStep false (List.replicate j ['.', '.']) ['.', '.'] =
        List.replicate (j + 1) ['.', '.'] := by
      cases j with
      | zero => simp [cleanStep]
      | succ j => simp [cleanStep, List.replicate_succ]
    rw [hstep, ih (j + 1)]
    congr 1
    omega

/-- The element loop leaves a cleaned list as it is. -/
theorem foldl_cleanStep_fixed (rooted : Bool) (acc : List (List Char))
    (h : NormAcc rooted acc) : acc.reverse.foldl (cleanStep rooted) [] = acc := by
  obtain ⟨V, k, rfl, hV, hk⟩ := h
  rw [List.reverse_append, List.foldl_append, List.reverse_replicate]
  have hdd : (List.replicate k ['.', '.']).foldl (cleanStep rooted) [] =
      List.replicate k ['.', '.'] := by
    cases rooted with
    | true =>
      have := hk rfl
      subst this
      simp
    | false =>
      have := foldl_cleanStep_dotdot 0 k
      simpa using this
  rw [hdd, foldl_cleanStep_valid rooted V.reverse _ (fun e he => hV e (List.mem_reverse.mp he))]
  simp

theorem joinSep_eq_nil (E : List (List Char)) (hE : ∀ e ∈ E, e ≠ []) (h : joinSep E = []) :
    E = [] := by
  cases E with
  | nil => rfl
  | cons x rest =>
    have hx := hE x (List.mem_cons_self _ _)
    cases rest with
    | nil => simp [joinSep] at h; exact absurd h hx
    | cons y ys => simp [joinSep] at h

theorem joinSep_head (x : List Char) (rest : List (List Char)) (hx : x ≠ []) :
    (joinSep (x :: rest)).head? = x.head? := by
  cases rest with
  | nil => simp [joinSep]
  | cons y ys =>
    cases x with
    | nil => exact absurd rfl hx
    | cons c cs => simp [joinSep]

theorem isRooted_joinSep (E : List (List Char))
    (hE : ∀ e ∈ E, e ≠ [] ∧ Separator ∉ e ∧ e ≠ ['.']) : isRooted (joinSep E) = false := by
  cases E with
  | nil => simp [joinSep, isRooted]
  | cons x rest =>
    obtain ⟨hx, hs, _⟩ := hE x (List.mem_cons_self _ _)
    unfold isRooted
    rw [joinSep_head x rest hx]
    cases x with
    | nil => exact absurd rfl hx
    | cons c cs =>
      have hc : c ≠ Separator := fun h => hs (by simp [h])
      simp [hc]

/-- Rendering a cleaned list keeps the rooted flag. -/
theorem isRooted_render (rooted : Bool) (E : List (List Char))
    (hE : NormAcc rooted E.reverse) : isRooted (render rooted E) = rooted := by
  have hmem : ∀ e ∈ E, e ≠ [] ∧ Separator ∉ e ∧ e ≠ ['.'] :=
    fun e he => NormAcc_mem rooted _ hE e (List.mem_reverse.mpr he)
  unfold render
  cases rooted with
  | true => simp [isRooted]
  | false =>
    simp only [Bool.false_eq_true, if_false]
    split
    · simp [isRooted, Separator]
    · exact isRooted_joinSep E hmem

/-- Cleaning a rendered cleaned list gives the list back. -/
theorem normElems_render (rooted : Bool) (E : List (List Char))
    (hE : NormAcc rooted E.reverse) : normElems (render rooted E) = E := by
  have hmem : ∀ e ∈ E, e ≠ [] ∧ Separator ∉ e ∧ e ≠ ['.'] :=
    fun e he => NormAcc_mem rooted _ hE e (List.mem_reverse.mpr he)
  have hr := isRooted_render rooted E hE
  have hfix : E.foldl (cleanStep rooted) [] = E.reverse := by
    have := foldl_cleanStep_fixed rooted E.reverse hE
    simpa using this
  unfold normElems
  rw [hr, cleanElems_eq_foldl]
  cases rooted with
  | true =>
    have hrender : render true E = Separator :: joinSep E := by simp [render]
    rw [hrender, splitSep_cons_sep]
    simp only [List.foldl_cons]
    have h0 : cleanStep true [] [] = [] := by simp [cleanStep]
    rw [h0]
    by_cases hne : E = []
    · subst hne
      simp [joinSep, splitSep, cleanStep]
    · rw [splitSep_joinSep E hne (fun e he => (hmem e he).2.1), hfix]
      simp
  | false =>
    by_cases hne : E = []
    · subst hne
      simp [render, joinSep, splitSep, splitSep_cons_ne, cleanStep, Separator]
    · have hj : joinSep E ≠ [] := fun h => hne (joinSep_eq_nil E (fun e he => (hmem e he).1) h)
      have hrender : render false E = joinSep E := by simp [render, hj]
      rw [hrender, splitSep_joinSep E hne (fun e he => (hmem e he).2.1), hfix]
      simp

/-- The result of `Clean` is the rendering of the cleaned elements. -/
theorem cleanChars_eq_render (p : List Char) :
    cleanChars p = render (isRooted p) (normElems p) := by
  cases p with
  | nil => simp [cleanChars, render, normElems, isRooted, splitSep, cleanElems, joinSep]
  | cons c cs =>
    by_cases hc : c = Separator
    · subst hc
      simp [cleanChars, render, normElems, isRooted]
    · have hb : (c == Separator) = false := by simp [hc]
      simp [cleanChars, render, normElems, isRooted, hc, hb]

end NormLemmas

section RelLemmas

open filepath

theorem isRooted_append (p q : List Char) (hp : p ≠ []) : isRooted (p ++ q) = isRooted p := by
  cases p with
  | nil => exact absurd rfl hp
  | cons c cs => simp [isRooted]

theorem normElems_nil : normElems [] = [] := by
  simp [normElems, isRooted, splitSep, cleanElems]

theorem normElems_valid (n : List Char) (hn : validElem n) :
    isRooted n = false ∧ normElems n = [n] := by
  obtain ⟨h1, h2, h3, h4⟩ := hn
  have hr : isRooted n = false := by
    cases n with
    | nil => exact absurd rfl h1
    | cons c cs =>
      have hc : c ≠ Separator := fun h => h2 (by simp [h])
      simp [isRooted, hc]
  refine ⟨hr, ?_⟩
  unfold normElems
  rw [hr, cleanElems_eq_foldl, splitSep_sepfree n h2]
  simp [cleanStep_valid false [] n ⟨h1, h2, h3, h4⟩]

theorem normElems_append_name (p n : List Char) (hp : p ≠ []) (hn : validElem n) :
    normElems (p ++ Separator :: n) = normElems p ++ [n] := by
  unfold normElems
  rw [isRooted_append p _ hp, cleanElems_eq_foldl, cleanElems_eq_foldl,
    splitSep_append_name p n hn.2.1, List.foldl_append]
  simp [cleanStep_valid _ _ n hn]

/-- The characters of `Join [p, n]` for a valid name `n`: the cleaned elements
of `p` followed by `n`. -/
theorem Join_data (p n : String) (hn : validName n) :
    (Join [p, n]).data = render (isRooted p.data) (normElems p.data ++ [n.data]) := by
  obtain ⟨pd⟩ := p
  obtain ⟨nd⟩ := n
  unfold validName at hn
  simp only at hn
  have hnd : nd ≠ [] := hn.1
  have hns : (String.mk nd = "") = False := by
    simp only [eq_iff_iff, iff_false]
    intro h
    exact hnd (congrArg String.data h)
  by_cases hp : pd = []
  · subst hp
    have hpe : (String.mk [] = "") = True := by simp
    obtain ⟨hr, hE⟩ := normElems_valid nd hn
    simp only [Join, hpe, hns, if_true, if_false, List.map, joinSep, Clean]
    rw [cleanChars_eq_render, hr, hE, normElems_nil]
    simp [isRooted]
  · have hpe : (String.mk pd = "") = False := by
      simp only [eq_iff_iff, iff_false]
      intro h
      exact hp (congrArg String.data h)
    simp only [Join, hpe, if_false, List.map, joinSep, Clean]
    rw [cleanChars_eq_render, isRooted_append pd _ hp, normElems_append_name pd nd hp hn]

theorem NormAcc_snoc (rooted : Bool) (E : List (List Char)) (n : List Char)
    (hE : NormAcc rooted E.reverse) (hn : validElem n) : NormAcc rooted (E ++ [n]).reverse := by
  rw [List.reverse_append]
  exact NormAcc_push rooted _ n hE hn

/-- The cleaned form of a path `Walk` builds below a root: the cleaned elements
of the root followed by the names. -/
theorem walkPath_norm (names : List String) (hnames : ∀ n ∈ names, validName n) (p : String) :
    isRooted (walkPath p names).data = isRooted p.data ∧
      normElems (walkPath p names).data = normElems p.data ++ names.map String.data := by
  induction names generalizing p with
  | nil => simp [walkPath]
  | cons n ns ih =>
    have hn := hnames n (List.mem_cons_self _ _)
    have hns : ∀ x ∈ ns, validName x := fun x hx => hnames x (List.mem_cons_of_mem _ hx)
    have hj := Join_data p n hn
    have hnorm := NormAcc_snoc _ _ n.data (normElems_norm p.data) hn
    have h1 : isRooted (Join [p, n]).data = isRooted p.data := by
      rw [hj]; exact isRooted_render _ _ hnorm
    have h2 : normElems (Join [p, n]).data = normElems p.data ++ [n.data] := by
      rw [hj]; exact normElems_render _ _ hnorm
    obtain ⟨i1, i2⟩ := ih hns (Join [p, n])
    have hw : walkPath p (n :: ns) = walkPath (Join [p, n]) ns := by
      simp [walkPath]
    rw [hw, i1, i2, h1, h2]
    simp

theorem dropCommon_append (P X : List (List Char)) : dropCommon P (P ++ X) = ([], X) := by
  induction P with
  | nil => cases X <;> simp [dropCommon]
  | cons b bs ih => simp [dropCommon, ih]

theorem render_eq_dot (rooted : Bool) (E : List (List Char)) (hE : NormAcc rooted E.reverse)
    (h : render rooted E = ['.']) : rooted = false ∧ E = [] := by
  have hmem : ∀ e ∈ E, e ≠ [] ∧ Separator ∉ e ∧ e ≠ ['.'] :=
    fun e he => NormAcc_mem rooted _ hE e (List.mem_reverse.mpr he)
  cases rooted with
  | true => simp [render, Separator] at h
  | false =>
    refine ⟨rfl, ?_⟩
    by_contra hne
    have hj : joinSep E ≠ [] := fun h0 => hne (joinSep_eq_nil E (fun e he => (hmem e he).1) h0)
    have hr : render false E = joinSep E := by simp [render, hj]
    rw [hr] at h
    have hs := splitSep_joinSep E hne (fun e he => (hmem e he).2.1)
    rw [h] at hs
    have hd : splitSep ['.'] = [['.']] := by decide
    rw [hd] at hs
    exact (hmem ['.'] (by rw [← hs]; simp)).2.2 rfl

/-- The elements `Rel` scans in a rendered cleaned list. -/
theorem relElems_render (rooted : Bool) (E : List (List Char)) (hE : NormAcc rooted E.reverse)
    (hne : rooted = true ∨ E ≠ []) :
    relElems (render rooted E) = if rooted then [] :: E else E := by
  have hmem : ∀ e ∈ E, e ≠ [] ∧ Separator ∉ e ∧ e ≠ ['.'] :=
    fun e he => NormAcc_mem rooted _ hE e (List.mem_reverse.mpr he)
  cases rooted with
  | true =>
    by_cases hE0 : E = []
    · subst hE0
      simp [render, joinSep, relElems]
    · have hj : joinSep E ≠ [] :=
        fun h0 => hE0 (joinSep_eq_nil E (fun e he => (hmem e he).1) h0)
      have hr : render true E = Separator :: joinSep E := by simp [render]
      rw [hr]
      unfold relElems
      simp only [reduceCtorEq, if_false, List.cons.injEq, true_and, hj, if_true]
      rw [splitSep_cons_sep, splitSep_joinSep E hE0 (fun e he => (hmem e he).2.1)]
  | false =>
    have hE0 : E ≠ [] := by
      rcases hne with h | h
      · exact absurd h (by simp)
      · exact h
    have hj : joinSep E ≠ [] := fun h0 => hE0 (joinSep_eq_nil E (fun e he => (hmem e he).1) h0)
    have hr : render false E = joinSep E := by simp [render, hj]
    have hs := splitSep_joinSep E hE0 (fun e he => (hmem e he).2.1)
    rw [hr]
    unfold relElems
    have hsep : joinSep E ≠ [Separator] := by
      intro h
      rw [h] at hs
      have hd : splitSep [Separator] = [[], []] := by decide
      rw [hd] at hs
      exact (hmem [] (by rw [← hs]; simp)).1 rfl
    simp only [hj, hsep, if_false, Bool.false_eq_true]
    exact hs

/-- The function `Rel` succeeds when the target is the base followed by more
elements. -/
theorem Rel_of_extension (base targ : String) (X : List (List Char))
    (hR : isRooted targ.data = isRooted base.data)
    (hE : normElems targ.data = normElems base.data ++ X) :
    ∃ rel, Rel base targ = .ok rel := by
  have hnb := normElems_norm base.data
  have hnt := normElems_norm targ.data
  rw [hR, hE] at hnt
  unfold filepath.Rel
  simp only [cleanChars_eq_render, hR, hE]
  generalize hRd : isRooted base.data = R at hnb hnt
  generalize hEd : normElems base.data = E at hnb hnt
  by_cases heq : render R (E ++ X) = render R E
  · exact ⟨".", by simp [heq]⟩
  · simp only [heq, if_false]
    have hbase : relElems (if render R E = ['.'] then [] else render R E) =
        if R then [] :: E else E := by
      by_cases hd : render R E = ['.']
      · obtain ⟨hR0, hE0⟩ := render_eq_dot R E hnb hd
        subst hR0 hE0
        simp [hd, relElems]
      · simp only [hd, if_false]
        apply relElems_render R E hnb
        by_contra hcon
        push_neg at hcon
        obtain ⟨hR0, hE0⟩ := hcon
        have hR1 : R = false := by simpa using hR0
        subst hR1 hE0
        exact hd (by simp [render, joinSep])
    have hbroot : ((if render R E = ['.'] then [] else render R E).head? == some Separator) =
        R := by
      by_cases hd : render R E = ['.']
      · obtain ⟨hR0, _⟩ := render_eq_dot R E hnb hd
        subst hR0
        simp [hd]
      · simp only [hd, if_false]
        exact isRooted_render R E hnb
    have htroot : ((render R (E ++ X)).head? == some Separator) = R :=
      isRooted_render R (E ++ X) hnt
    have htarg : relElems (render R (E ++ X)) = if R then [] :: (E ++ X) else E ++ X := by
      apply relElems_render R (E ++ X) hnt
      by_contra hcon
      push_neg at hcon
      obtain ⟨hR0, hE0⟩ := hcon
      have hR1 : R = false := by simpa using hR0
      have hE1 : E = [] := (List.append_eq_nil.mp hE0).1
      have hX1 : X = [] := (List.append_eq_nil.mp hE0).2
      subst hR1 hE1 hX1
      exact heq rfl
    rw [hbroot, htroot, hbase, htarg]
    have hdrop : dropCommon (if R then [] :: E else E)
        (if R then [] :: (E ++ X) else E ++ X) = ([], X) := by
      cases R with
      | true => simpa using dropCommon_append ([] :: E) X
      | false => simpa using dropCommon_append E X
    rw [hdrop]
    simp

/-- The function `Rel` succeeds on every path `Walk` builds below a root. -/
theorem Rel_walkPath (root : String) (names : List String)
    (hnames : ∀ n ∈ names, validName n) :
    ∃ rel, Rel root (walkPath root names) = .ok rel := by
  obtain ⟨h1, h2⟩ := walkPath_norm names hnames root
  exact Rel_of_extension root (walkPath root names) (names.map String.data) h1 h2

end RelLemmas

section TrailingLemmas

open filepath generators

/-- A separator at the end of a non-empty path is dropped by `Clean`. -/
theorem cleanChars_trailing_sep (x : List Char) (hx : x ≠ []) :
    cleanChars (x ++ [Separator]) = cleanChars x := by
  have hs : splitSep (x ++ [Separator]) = splitSep x ++ [[]] :=
    splitSep_append_name x [] (by simp)
  rw [cleanChars_eq_render, cleanChars_eq_render, isRooted_append x _ hx]
  congr 1
  unfold normElems
  rw [isRooted_append x _ hx, cleanElems_eq_foldl, cleanElems_eq_foldl, hs, List.foldl_append]
  simp [cleanStep]

/-- A separator at the end of the last element does not change a join. -/
theorem Join_trailing_sep (d p : String) (hp : p ≠ "") :
    Join [d, p ++ "/"] = Join [d, p] := by
  obtain ⟨dd⟩ := d
  obtain ⟨pd⟩ := p
  have hpd : pd ≠ [] := by
    intro h
    subst h
    exact hp rfl
  have hdata : (String.mk pd ++ "/") = String.mk (pd ++ [Separator]) := rfl
  have hp1 : (String.mk pd = "") = False := by
    simp only [eq_iff_iff, iff_false]
    intro h
    exact hpd (congrArg String.data h)
  have hp2 : (String.mk (pd ++ [Separator]) = "") = False := by
    simp only [eq_iff_iff, iff_false]
    intro h
    have := congrArg String.data h
    simp at this
  rw [hdata]
  by_cases hd : dd = []
  · subst hd
    have hde : (String.mk [] = "") = True := by simp
    simp only [Join, hde, hp1, hp2, if_true, if_false, List.map, joinSep, Clean]
    rw [cleanChars_trailing_sep pd hpd]
  · have hde : (String.mk dd = "") = False := by
      simp only [eq_iff_iff, iff_false]
      intro h
      exact hd (congrArg String.data h)
    simp only [Join, hde, if_false, List.map, joinSep, Clean]
    have : dd ++ Separator :: (pd ++ [Separator]) = (dd ++ Separator :: pd) ++ [Separator] := by
      simp
    rw [this, cleanChars_trailing_sep _ (by simp)]

/-- With a non-empty destination path the rewrite of the many-matches branch
leaves the destination `Run` computes as it is. -/
theorem destPathOf_withSeparator (g : copy) (hp : g.defFile.Path ≠ "") :
    destPathOf (withSeparator g) = destPathOf g := by
  have hne : g.defFile.Path ++ "/" ≠ "" := by
    intro h
    have := congrArg String.data h
    have hd : (g.defFile.Path ++ "/").data = g.defFile.Path.data ++ ['/'] := rfl
    rw [hd] at this
    simp at this
  simp only [destPathOf, withSeparator, hne, hp, ne_eq, not_false_eq_true, if_true]
  exact Join_trailing_sep g.sourceDir g.defFile.Path hp

end TrailingLemmas

section ListingLemmas

open generators

variable {σ : Type}

/-- The end of `Run` keeps the generator it is given. -/
theorem finish_gen (g : copy) (r : Option Error × World σ) : (finish g r).2.1 = g := by
  unfold finish
  split <;> rfl

/-- The listing loop fails with the pattern error when `filepath.Match` rejects
the pattern on a listed name. -/
theorem matchEntries_error (srcPath : String) (names acc : List String)
    (h : ∃ n ∈ names,
      filepath.Match srcPath (filepath.Join [filepath.Dir srcPath, n]) =
        .error Error.ErrBadPattern) :
    matchEntries srcPath names acc = .error Error.ErrBadPattern := by
  induction names generalizing acc with
  | nil =>
    obtain ⟨n, hn, _⟩ := h
    simp at hn
  | cons a rest ih =>
    obtain ⟨n, hn, hm⟩ := h
    unfold matchEntries
    cases ha : filepath.Match srcPath (filepath.Join [filepath.Dir srcPath, a]) with
    | error e =>
      rw [Match_error _ _ _ ha]
    | ok m =>
      have hn2 : n ∈ rest := by
        rcases List.mem_cons.mp hn with rfl | hn
        · rw [ha] at hm
          simp at hm
        · exact hn
      simp only []
      split <;> exact ih _ ⟨n, hn2, hm⟩

/-- The listing loop ends with a list of matches when `filepath.Match` rejects
the pattern on no listed name. -/
theorem matchEntries_ok (srcPath : String) (names acc : List String)
    (h : ∀ n ∈ names,
      filepath.Match srcPath (filepath.Join [filepath.Dir srcPath, n]) ≠
        .error Error.ErrBadPattern) :
    ∃ files, matchEntries srcPath names acc = .ok files := by
  induction names generalizing acc with
  | nil => exact ⟨acc, rfl⟩
  | cons a rest ih =>
    have hrest : ∀ n ∈ rest,
        filepath.Match srcPath (filepath.Join [filepath.Dir srcPath, n]) ≠
          .error Error.ErrBadPattern := fun n hn => h n (List.mem_cons_of_mem _ hn)
    unfold matchEntries
    cases ha : filepath.Match srcPath (filepath.Join [filepath.Dir srcPath, a]) with
    | error e =>
      exfalso
      apply h a (List.mem_cons_self _ _)
      rw [ha, Match_error _ _ _ ha]
    | ok m =>
      simp only []
      split
      · exact ih _ hrest
      · exact ih _ hrest

end ListingLemmas

/-! ## Properties of the generator -/

section Claims

open generators

variable {σ : Type}

/-- C1 (amended): when the pattern matches two or more entries, `Run` stores
the spec with a separator appended to its destination path and places the
matches in listing order up to the first failure: what it is seen to do (its
success, the filesystem it leaves, its calls of `MkdirAll`, `FileCopy`,
`updateFileAccess` and `Printf`) is what placing the matches one by one does.
In that loop a match that `Stat` reports as a regular file is placed by
`FileCopy` at `Join [destPath, Base match]`, while a match that `Stat` reports
as a directory is walked with destination `destPath` itself: every visited node
is mirrored at its path relative to the match joined onto `destPath`.  Here
`destPath` is `Join [sourceDir, Path]`, or `Join [sourceDir, Source]` when
`Path` is empty. -/
theorem many_matches_destination (sys : OS σ) (g : copy) (w : World σ)
    (names files : List String)
    (hread : sys.ReadDir w.fs (filepath.Dir g.defFile.Source) = .ok names)
    (hmatch : matchEntries g.defFile.Source names [] = .ok files)
    (hlen : 2 ≤ files.length) :
    (Run sys g w).2.1 = withSeparator g ∧
      outcome w ((Run sys g w).1, (Run sys g w).2.2) =
        spec.placeAll sys (destPathOf g) (withSeparator g).defFile files w.fs ∧
      ∀ f ∈ files, ∀ (w1 : World σ) (mode : Nat), sys.Stat w1.fs f = .ok mode →
        (isRegularOrSymlink mode →
          outcome w1 (doCopy sys f (destPathOf g) (withSeparator g).defFile w1) =
            spec.placeFile sys f (filepath.Join [destPathOf g, filepath.Base f])
              (withSeparator g).defFile w1.fs) ∧
        (isDirectory mode →
          outcome w1 (doCopy sys f (destPathOf g) (withSeparator g).defFile w1) =
            spec.mirror sys f (destPathOf g) (withSeparator g).defFile
              (sys.Walk w1.fs f) w1.fs) := by
  have hrun := Run_many sys g w names files hread hmatch hlen
  refine ⟨?_, ?_, ?_⟩
  · rw [hrun, finish_gen]
  · rw [hrun]
    exact Refines_outcome_eq (finish_refines (withSeparator g)
      (copyEach_refines sys (destPathOf g) (withSeparator g).defFile files w))
  · intro f _ w1 mode hstat
    have hd := Refines_outcome_eq
      (doCopy_refines sys f (destPathOf g) (withSeparator g).defFile w1)
    constructor
    · intro hk
      rw [hd]
      simp [spec.place, hstat, hk, withSeparator, HasSuffix_append_sep]
    · intro hk
      have hn : ¬ isRegularOrSymlink mode := by
        unfold isRegularOrSymlink
        unfold isDirectory at hk
        rw [hk]
        decide
      rw [hd]
      simp [spec.place, hstat, hk, hn]

/-- C2: for a literal source path that matches exactly one listed entry, that
entry being a regular file or symbolic link, and a destination path without a
trailing separator, `Run` leaves the generator as it was and places the source
at `destPath` itself: what it is seen to do (its success, the filesystem it
leaves, its calls of `MkdirAll`, `FileCopy` and `updateFileAccess`) is the
placement of `Source` at `destPath`; every call of `FileCopy` it makes copies
`Source` to `destPath`, never to another destination, and when `Run` returns
nil it has made exactly that one call. -/
theorem single_literal_destination (sys : OS σ) (g : copy) (w : World σ)
    (names : List String) (m : String) (mode : Nat)
    (hlit : isLiteral g.defFile.Source)
    (hread : sys.ReadDir w.fs (filepath.Dir g.defFile.Source) = .ok names)
    (hmatch : matchEntries g.defFile.Source names [] = .ok [m])
    (hstat : sys.Stat w.fs m = .ok mode)
    (hkind : isRegularOrSymlink mode)
    (hpath : strings.HasSuffix g.defFile.Path "/" = false) :
    (Run sys g w).2.1 = g ∧
      outcome w ((Run sys g w).1, (Run sys g w).2.2) =
        spec.placeFile sys g.defFile.Source (destPathOf g) g.defFile w.fs ∧
      (∀ p ∈ fileCopyCalls (outcome w ((Run sys g w).1, (Run sys g w).2.2)).calls,
        p = (g.defFile.Source, destPathOf g)) ∧
      ((Run sys g w).1 = none →
        fileCopyCalls (outcome w ((Run sys g w).1, (Run sys g w).2.2)).calls =
          [(g.defFile.Source, destPathOf g)]) := by
  have hm : m = g.defFile.Source := by
    rcases matchEntries_mem _ _ _ _ hmatch m (List.mem_singleton_self m) with h | ⟨n, _, _, h⟩
    · simp at h
    · exact Match_literal _ _ hlit h
  subst hm
  have hrun := Run_one sys g w names _ hread hmatch rfl
  have hout : outcome w ((Run sys g w).1, (Run sys g w).2.2) =
      spec.placeFile sys g.defFile.Source (destPathOf g) g.defFile w.fs := by
    rw [hrun, Refines_outcome_eq (finish_refines g
      (doCopy_refines sys g.defFile.Source (destPathOf g) g.defFile w))]
    simp [spec.place, hstat, hkind, hpath]
  have hcalls := placeFile_fileCopyCalls sys g.defFile.Source (destPathOf g) g.defFile w.fs
  refine ⟨?_, hout, ?_, ?_⟩
  · rw [hrun, finish_gen]
  · rw [hout]
    exact hcalls.1
  · intro hnil
    have hok : (outcome w ((Run sys g w).1, (Run sys g w).2.2)).ok = true := by
      simp [outcome, hnil]
    rw [hout] at hok ⊢
    exact hcalls.2 hok

/-- C3 (the code at the failing input): the pattern `/src/*.txt` matches the
one entry `/src/a.txt`, yet `Run` enters `doCopy` with the pattern itself,
which names no file, and fails on its `Stat`. -/
theorem single_glob_match_copies_pattern :
    SimFS.sys.ReadDir SimFS.tree (filepath.Dir "/src/*.txt") = .ok ["a.txt", "d", "e"] ∧
      matchEntries "/src/*.txt" ["a.txt", "d", "e"] [] = .ok ["/src/a.txt"] ∧
      doCopyCalls (Run SimFS.sys (SimFS.gen "/src/*.txt" "/dst")
        (SimFS.world SimFS.tree)).2.2.log = ["/src/*.txt"] ∧
      (Run SimFS.sys (SimFS.gen "/src/*.txt" "/dst") (SimFS.world SimFS.tree)).1 =
        some (Error.Wrap (Error.Wrapf (Error.errno os.ENOENT) "Failed to stat file %q"
          ["/src/*.txt"]) "Failed to copy file(s)") := by
  refine ⟨by decide, by decide, by decide, by decide⟩

/-- C4: when the pattern matches no listed entry and `Stat` of the literal
source fails (in particular with a not-found error), `Run` returns that error
wrapped as a stat failure and leaves the generator and the world as they were:
nothing is logged and the filesystem is the same. -/
theorem no_match_missing_literal (sys : OS σ) (g : copy) (w : World σ)
    (names : List String) (e : Error)
    (hread : sys.ReadDir w.fs (filepath.Dir g.defFile.Source) = .ok names)
    (hmatch : matchEntries g.defFile.Source names [] = .ok [])
    (hstat : sys.Stat w.fs g.defFile.Source = .error e) :
    Run sys g w =
      (some (Error.Wrapf e "Failed to stat file %q" [g.defFile.Source]), g, w) := by
  simp [Run, hread, hmatch, hstat]

/-- C5: in the many-matches branch, when the copies of the matches before `f`
succeed and the copy of `f` fails with `e`, `Run` returns `e` wrapped, the
world is the one that failing copy left (nothing is undone and nothing more is
done), and `doCopy` was entered exactly on the matches up to `f`, in order. -/
theorem many_matches_abort_on_first_failure (sys : OS σ) (g : copy) (w w1 w2 : World σ)
    (names pre post : List String) (f : String) (e : Error)
    (hread : sys.ReadDir w.fs (filepath.Dir g.defFile.Source) = .ok names)
    (hmatch : matchEntries g.defFile.Source names [] = .ok (pre ++ f :: post))
    (hlen : 2 ≤ (pre ++ f :: post).length)
    (hpre : copyEach sys (destPathOf g) (withSeparator g).defFile pre w = (none, w1))
    (hf : doCopy sys f (destPathOf g) (withSeparator g).defFile w1 = (some e, w2)) :
    Run sys g w = (some (Error.Wrap e "Failed to copy file(s)"), withSeparator g, w2) ∧
      doCopyCalls w2.log = doCopyCalls w.log ++ (pre ++ [f]) := by
  constructor
  · rw [Run_many sys g w names _ hread hmatch hlen,
      copyEach_break sys _ _ pre post f w w1 w2 e hpre hf]
    rfl
  · have h1 := copyEach_calls sys _ _ pre w w1 hpre
    have h2 := doCopy_calls sys f (destPathOf g) (withSeparator g).defFile w1
    rw [hf] at h2
    simp only [] at h2
    rw [h2, h1, List.append_assoc]

/-- C6 (amended): for a source whose directory can be listed, `Run` fails with
the pattern error (`ErrBadPattern` wrapped as "Failed to match pattern") when
`filepath.Match` rejects the pattern on at least one listed entry, and then it
leaves the generator and the world as they were: no copy is attempted.  When
`filepath.Match` rejects the pattern on no listed entry (the listing is empty,
or every entry is told apart before the malformed part is reached), `Run`
reports no pattern error. -/
theorem malformed_pattern_error (sys : OS σ) (g : copy) (w : World σ)
    (names : List String)
    (hread : sys.ReadDir w.fs (filepath.Dir g.defFile.Source) = .ok names) :
    ((∃ n ∈ names,
        filepath.Match g.defFile.Source
          (filepath.Join [filepath.Dir g.defFile.Source, n]) = .error Error.ErrBadPattern) →
      Run sys g w =
        (some (Error.Wrap Error.ErrBadPattern "Failed to match pattern"), g, w)) ∧
    ((∀ n ∈ names,
        filepath.Match g.defFile.Source
          (filepath.Join [filepath.Dir g.defFile.Source, n]) ≠ .error Error.ErrBadPattern) →
      ∀ e : Error, (Run sys g w).1 ≠ some (Error.Wrap e "Failed to match pattern")) := by
  constructor
  · intro hbad
    have hm := matchEntries_error g.defFile.Source names [] hbad
    simp [Run, hread, hm]
  · intro hgood e
    obtain ⟨files, hm⟩ := matchEntries_ok g.defFile.Source names [] hgood
    simp only [Run, hread, hm]
    split
    · split
      · simp
      · simp only [finish]
        split <;> simp
    · simp only [finish]
      split <;> simp
    · simp only [finish]
      split <;> simp

/-- C7: a node of the walk that is neither a regular file, a symbolic link nor
a directory is skipped.  For a node that `Walk` hands over without error at the
path it forms from the source directory and a chain of entry names, the walk
function returns nil and only logs the warning (no `copyFile`, no `MkdirAll`,
the filesystem untouched); the walk goes on with the nodes after it; and when
the nodes before and after it raise no error, `copyDir` and `doCopy` on that
directory return nil. -/
theorem walk_skips_unsupported (sys : OS σ) (srcPath destPath : String)
    (defFile : DefinitionFile) (pre post : List Visit) (v : Visit) (names : List String)
    (w w1 w2 : World σ) (dmode : Nat)
    (hv : v.err = none)
    (hpath : v.path = walkPath srcPath names)
    (hnames : ∀ n ∈ names, validName n)
    (hkind : isUnsupported v.mode)
    (hstat : sys.Stat w.fs srcPath = .ok dmode)
    (hdir : isDirectory dmode)
    (hwalk : walkVisits (walkFn sys srcPath destPath defFile) (sys.Walk w.fs srcPath)
      ((w.emit (Event.doCopy srcPath destPath defFile)).emit
        (Event.copyDir srcPath destPath)) = pre ++ v :: post)
    (hpre : walkAll (walkFn sys srcPath destPath defFile) pre
      ((w.emit (Event.doCopy srcPath destPath defFile)).emit
        (Event.copyDir srcPath destPath)) = (none, w1))
    (hpost : walkAll (walkFn sys srcPath destPath defFile) post
      (w1.emit (Event.Printf "File type of %q not supported, skipping" [v.path])) =
        (none, w2)) :
    (∀ w0 : World σ, walkFn sys srcPath destPath defFile v w0 =
        (none, w0.emit (Event.Printf "File type of %q not supported, skipping" [v.path]))) ∧
      walkAll (walkFn sys srcPath destPath defFile) (pre ++ v :: post)
        ((w.emit (Event.doCopy srcPath destPath defFile)).emit
          (Event.copyDir srcPath destPath)) =
        walkAll (walkFn sys srcPath destPath defFile) post
          (w1.emit (Event.Printf "File type of %q not supported, skipping" [v.path])) ∧
      copyDir sys srcPath destPath defFile
        (w.emit (Event.doCopy srcPath destPath defFile)) = (none, w2) ∧
      doCopy sys srcPath destPath defFile w = (none, w2) := by
  obtain ⟨rel, hrel⟩ : ∃ rel, filepath.Rel srcPath v.path = .ok rel := by
    rw [hpath]
    exact Rel_walkPath srcPath names hnames
  have hnode : ∀ w0 : World σ, walkFn sys srcPath destPath defFile v w0 =
      (none, w0.emit (Event.Printf "File type of %q not supported, skipping" [v.path])) :=
    fun w0 => walkFn_other sys srcPath destPath defFile v rel w0 hv hrel hkind
  have hgo : walkAll (walkFn sys srcPath destPath defFile) (pre ++ v :: post)
      ((w.emit (Event.doCopy srcPath destPath defFile)).emit
        (Event.copyDir srcPath destPath)) =
      walkAll (walkFn sys srcPath destPath defFile) post
        (w1.emit (Event.Printf "File type of %q not supported, skipping" [v.path])) := by
    rw [walkAll_append _ pre (v :: post) _ w1 hpre]
    simp only [walkAll, hnode w1]
  have hcd : copyDir sys srcPath destPath defFile
      (w.emit (Event.doCopy srcPath destPath defFile)) = (none, w2) := by
    have hw : walkVisits (walkFn sys srcPath destPath defFile)
        (sys.Walk ((w.emit (Event.doCopy srcPath destPath defFile)).emit
          (Event.copyDir srcPath destPath)).fs srcPath)
        ((w.emit (Event.doCopy srcPath destPath defFile)).emit
          (Event.copyDir srcPath destPath)) = pre ++ v :: post := hwalk
    simp only [copyDir, Walk_flat, hw, hgo, hpost]
  refine ⟨hnode, hgo, hcd, ?_⟩
  rw [doCopy_dir sys srcPath destPath defFile w dmode hstat hdir, hcd]
  rfl

/-- C8: for a source that `Stat` finds and whose kind is neither regular file,
symbolic link nor directory, `doCopy` returns the unsupported-type error that
carries the source path, and nothing is written: the filesystem is the same
and the log gains only the entry of `doCopy` itself. -/
theorem doCopy_unsupported_kind (sys : OS σ) (srcPath destPath : String)
    (defFile : DefinitionFile) (w : World σ) (mode : Nat)
    (hstat : sys.Stat w.fs srcPath = .ok mode)
    (hkind : isUnsupported mode) :
    (doCopy sys srcPath destPath defFile w).1 =
        some (Error.Errorf "File type of %q not supported" [srcPath]) ∧
      (doCopy sys srcPath destPath defFile w).2.fs = w.fs ∧
      (doCopy sys srcPath destPath defFile w).2.log =
        w.log ++ [Event.doCopy srcPath destPath defFile] := by
  rw [doCopy_other sys srcPath destPath defFile w mode hstat hkind]
  exact ⟨rfl, rfl, rfl⟩

/-- C9: `copyDir` mirrors every node of the walk at its path relative to the
source directory joined onto `destPath`, whatever the spec's destination path
looks like.  What `copyDir` is seen to do (its success, the filesystem it
leaves, its calls of `MkdirAll`, `FileCopy`, `updateFileAccess` and `Printf`)
is the mirroring of the walk of `srcPath`, node after node, each entry read
when the walk gets to it.  For a node handed over without error, with `rel`
its path relative to the source directory: a regular file or symbolic link is
placed by `FileCopy` at `Join [destPath, rel]` and at no other destination, and
a directory is made at `Join [destPath, rel]` by the one call of `MkdirAll`,
with no `updateFileAccess` on it. -/
theorem walk_mirrors_relative_path (sys : OS σ) (srcPath destPath : String)
    (defFile : DefinitionFile) (w : World σ) :
    outcome w (copyDir sys srcPath destPath defFile w) =
        spec.mirror sys srcPath destPath defFile (sys.Walk w.fs srcPath) w.fs ∧
      ∀ (v : Visit) (rel : String) (w0 : World σ), v.err = none →
        filepath.Rel srcPath v.path = .ok rel →
        (isRegularOrSymlink v.mode →
          outcome w0 (walkFn sys srcPath destPath defFile v w0) =
              spec.placeFile sys v.path (filepath.Join [destPath, rel]) defFile w0.fs ∧
            ∀ p ∈ fileCopyCalls (outcome w0 (walkFn sys srcPath destPath defFile v w0)).calls,
              p = (v.path, filepath.Join [destPath, rel])) ∧
        (isDirectory v.mode →
          outcome w0 (walkFn sys srcPath destPath defFile v w0) =
            ⟨(sys.MkdirAll w0.fs (filepath.Join [destPath, rel]) os.ModePerm).1.isNone,
              (sys.MkdirAll w0.fs (filepath.Join [destPath, rel]) os.ModePerm).2,
              [Event.MkdirAll (filepath.Join [destPath, rel]) os.ModePerm]⟩) := by
  refine ⟨Refines_outcome_eq (copyDir_refines sys srcPath destPath defFile w), ?_⟩
  intro v rel w0 hv hrel
  have hn := Refines_outcome_eq (walkFn_refines sys srcPath destPath defFile v w0)
  constructor
  · intro hk
    have hout : outcome w0 (walkFn sys srcPath destPath defFile v w0) =
        spec.placeFile sys v.path (filepath.Join [destPath, rel]) defFile w0.fs := by
      rw [hn]
      simp [spec.mirrorNode, hv, hrel, hk]
    refine ⟨hout, ?_⟩
    rw [hout]
    exact (placeFile_fileCopyCalls sys v.path (filepath.Join [destPath, rel]) defFile w0.fs).1
  · intro hk
    have hnot : ¬ isRegularOrSymlink v.mode := by
      unfold isRegularOrSymlink
      unfold isDirectory at hk
      rw [hk]
      decide
    rw [hn]
    simp [spec.mirrorNode, hv, hrel, hk, hnot, spec.call]

/-- C10 (amended): the rewrite is stored in the generator.  After `Run` has
listed the directory and matched the entries, the generator it leaves is the
one before the call with a separator appended to the spec's destination path
when there are two or more matches, and the one before the call otherwise.
When the destination path was not empty, the destination a later `Run`
computes from the stored spec is still the same. -/
theorem rewrite_is_stored (sys : OS σ) (g : copy) (w : World σ) (names files : List String)
    (hread : sys.ReadDir w.fs (filepath.Dir g.defFile.Source) = .ok names)
    (hmatch : matchEntries g.defFile.Source names [] = .ok files) :
    (Run sys g w).2.1 = (if 2 ≤ files.length then withSeparator g else g) ∧
      (g.defFile.Path ≠ "" → destPathOf (Run sys g w).2.1 = destPathOf g) := by
  have hgen : (Run sys g w).2.1 = if 2 ≤ files.length then withSeparator g else g := by
    simp only [Run, hread, hmatch, withSeparator]
    rcases hlen : files.length with _ | _ | n
    · simp only [Nat.reduceLeDiff, if_false]
      split
      · rfl
      · simp only [finish]
        split <;> rfl
    · simp only [finish, Nat.reduceLeDiff, if_false]
      split <;> rfl
    · simp only [finish]
      have : 2 ≤ n + 1 + 1 := by omega
      simp only [this, if_true]
      split <;> rfl
  refine ⟨hgen, ?_⟩
  intro hp
  rw [hgen]
  split_ifs
  · exact destPathOf_withSeparator g hp
  · rfl

/-- C1 (counterexample): `/src/*` matches three entries, one of them the
directory `/src/d`; its file `/src/d/f` is copied by `FileCopy` to
`/rootfs/dst/f`, directly under `destPath`, and after `Run` there is a file at
`/rootfs/dst/f` and nothing at `/rootfs/dst/d/f`, which is
`Join [destPath, Base "/src/d", "f"]`. -/
theorem many_matches_directory_counterexample :
    matchEntries "/src/*" ["a.txt", "d", "e"] [] = .ok ["/src/a.txt", "/src/d", "/src/e"] ∧
      SimFS.sys.Stat SimFS.tree "/src/d" = .ok SimFS.dirMode ∧
      isDirectory SimFS.dirMode ∧
      fileCopyCalls (Run SimFS.sys (SimFS.gen "/src/*" "/dst")
          (SimFS.world SimFS.tree)).2.2.log =
        [("/src/a.txt", "/rootfs/dst/a.txt"), ("/src/d/f", "/rootfs/dst/f")] ∧
      SimFS.sys.Stat (Run SimFS.sys (SimFS.gen "/src/*" "/dst")
          (SimFS.world SimFS.tree)).2.2.fs "/rootfs/dst/f" = .ok SimFS.fileMode ∧
      SimFS.sys.Stat (Run SimFS.sys (SimFS.gen "/src/*" "/dst")
          (SimFS.world SimFS.tree)).2.2.fs "/rootfs/dst/d/f" =
        .error (Error.errno os.ENOENT) ∧
      filepath.Join [destPathOf (SimFS.gen "/src/*" "/dst"), filepath.Base "/src/d", "f"] =
        "/rootfs/dst/d/f" := by
  refine ⟨by decide, by decide, by decide, by decide, by decide, by decide, by decide⟩

/-- C1 (witness): the pattern `/src/*` on the example tree matches a file and
two directories.  `Run` stores the spec with the separator, makes the calls
listed (the file of `/src/d` goes to `/rootfs/dst/f`), the file `/src/a.txt` is
placed at `/rootfs/dst/a.txt`, and the directory `/src/d` is mirrored onto
`/rootfs/dst` itself. -/
theorem many_matches_destination_witness :
    SimFS.sys.ReadDir (SimFS.world SimFS.tree).fs
        (filepath.Dir (SimFS.gen "/src/*" "/dst").defFile.Source) = .ok ["a.txt", "d", "e"] ∧
      matchEntries (SimFS.gen "/src/*" "/dst").defFile.Source ["a.txt", "d", "e"] [] =
        .ok ["/src/a.txt", "/src/d", "/src/e"] ∧
      (Run SimFS.sys (SimFS.gen "/src/*" "/dst") (SimFS.world SimFS.tree)).2.1 =
        withSeparator (SimFS.gen "/src/*" "/dst") ∧
      (outcome (SimFS.world SimFS.tree)
          ((Run SimFS.sys (SimFS.gen "/src/*" "/dst") (SimFS.world SimFS.tree)).1,
            (Run SimFS.sys (SimFS.gen "/src/*" "/dst") (SimFS.world SimFS.tree)).2.2)).calls =
        [Event.MkdirAll "/rootfs/dst" os.ModePerm,
          Event.FileCopy "/src/a.txt" "/rootfs/dst/a.txt",
          Event.updateFileAccess "/rootfs/dst/a.txt"
            (withSeparator (SimFS.gen "/src/*" "/dst")).defFile,
          Event.MkdirAll "/rootfs/dst" os.ModePerm,
          Event.FileCopy "/src/d/f" "/rootfs/dst/f",
          Event.updateFileAccess "/rootfs/dst/f"
            (withSeparator (SimFS.gen "/src/*" "/dst")).defFile,
          Event.Printf "File type of %q not supported, skipping" ["/src/d/p"],
          Event.MkdirAll "/rootfs/dst" os.ModePerm] ∧
      (outcome (SimFS.world SimFS.tree)
          (doCopy SimFS.sys "/src/a.txt" (destPathOf (SimFS.gen "/src/*" "/dst"))
            (withSeparator (SimFS.gen "/src/*" "/dst")).defFile
            (SimFS.world SimFS.tree))).calls =
        [Event.MkdirAll "/rootfs/dst" os.ModePerm,
          Event.FileCopy "/src/a.txt" "/rootfs/dst/a.txt",
          Event.updateFileAccess "/rootfs/dst/a.txt"
            (withSeparator (SimFS.gen "/src/*" "/dst")).defFile] ∧
      (outcome (SimFS.world SimFS.tree)
          (doCopy SimFS.sys "/src/d" (destPathOf (SimFS.gen "/src/*" "/dst"))
            (withSeparator (SimFS.gen "/src/*" "/dst")).defFile
            (SimFS.world SimFS.tree))).calls =
        [Event.MkdirAll "/rootfs/dst" os.ModePerm,
          Event.FileCopy "/src/d/f" "/rootfs/dst/f",
          Event.updateFileAccess "/rootfs/dst/f"
            (withSeparator (SimFS.gen "/src/*" "/dst")).defFile,
          Event.Printf "File type of %q not supported, skipping" ["/src/d/p"]] := by
  have h := many_matches_destination SimFS.sys (SimFS.gen "/src/*" "/dst")
    (SimFS.world SimFS.tree) ["a.txt", "d", "e"] ["/src/a.txt", "/src/d", "/src/e"]
    (by decide) (by decide) (by decide)
  refine ⟨by decide, by decide, h.1, ?_, ?_, ?_⟩
  · rw [h.2.1]
    decide
  · rw [(h.2.2 "/src/a.txt" (by decide) (SimFS.world SimFS.tree) SimFS.fileMode
      (by decide)).1 (by decide)]
    decide
  · rw [(h.2.2 "/src/d" (by decide) (SimFS.world SimFS.tree) SimFS.dirMode
      (by decide)).2 (by decide)]
    decide

/-- C2 (witness): the literal source `/src/a.txt` with destination `/dst`.
`Run` returns nil with the one call of `FileCopy`, from `/src/a.txt` to
`/rootfs/dst`, and leaves a regular file at `/rootfs/dst` and nothing at
`/rootfs/dst/a.txt`. -/
theorem single_literal_destination_witness :
    isLiteral (SimFS.gen "/src/a.txt" "/dst").defFile.Source ∧
      matchEntries (SimFS.gen "/src/a.txt" "/dst").defFile.Source ["a.txt", "d", "e"] [] =
        .ok ["/src/a.txt"] ∧
      strings.HasSuffix (SimFS.gen "/src/a.txt" "/dst").defFile.Path "/" = false ∧
      (Run SimFS.sys (SimFS.gen "/src/a.txt" "/dst") (SimFS.world SimFS.tree)).2.1 =
        SimFS.gen "/src/a.txt" "/dst" ∧
      outcome (SimFS.world SimFS.tree)
          ((Run SimFS.sys (SimFS.gen "/src/a.txt" "/dst") (SimFS.world SimFS.tree)).1,
            (Run SimFS.sys (SimFS.gen "/src/a.txt" "/dst") (SimFS.world SimFS.tree)).2.2) =
        ⟨true, SimFS.tree ++ [⟨"/rootfs/dst", SimFS.fileMode, ""⟩],
          [Event.FileCopy "/src/a.txt" "/rootfs/dst",
            Event.updateFileAccess "/rootfs/dst" (SimFS.gen "/src/a.txt" "/dst").defFile]⟩ ∧
      fileCopyCalls (outcome (SimFS.world SimFS.tree)
          ((Run SimFS.sys (SimFS.gen "/src/a.txt" "/dst") (SimFS.world SimFS.tree)).1,
            (Run SimFS.sys (SimFS.gen "/src/a.txt" "/dst")
              (SimFS.world SimFS.tree)).2.2)).calls =
        [("/src/a.txt", "/rootfs/dst")] ∧
      SimFS.sys.Stat (SimFS.tree ++ [⟨"/rootfs/dst", SimFS.fileMode, ""⟩])
        "/rootfs/dst/a.txt" = .error (Error.errno SimFS.ENOTDIR) := by
  have h := single_literal_destination SimFS.sys (SimFS.gen "/src/a.txt" "/dst")
    (SimFS.world SimFS.tree) ["a.txt", "d", "e"] "/src/a.txt" SimFS.fileMode
    (by decide) (by decide) (by decide) (by decide) (by decide) (by decide)
  refine ⟨by decide, by decide, by decide, h.1, ?_, ?_, by decide⟩
  · rw [h.2.1]
    decide
  · exact h.2.2.2 (by decide)

/-- C4 (witness): the source `/src/nope` names nothing in the example tree. -/
theorem no_match_missing_literal_witness :
    matchEntries (SimFS.gen "/src/nope" "/dst").defFile.Source ["a.txt", "d", "e"] [] = .ok [] ∧
      os.IsNotExist (some (Error.errno os.ENOENT)) = true ∧
      Run SimFS.sys (SimFS.gen "/src/nope" "/dst") (SimFS.world SimFS.tree) =
        (some (Error.Wrapf (Error.errno os.ENOENT) "Failed to stat file %q"
          [(SimFS.gen "/src/nope" "/dst").defFile.Source]),
          SimFS.gen "/src/nope" "/dst", SimFS.world SimFS.tree) :=
  ⟨by decide, by decide,
    no_match_missing_literal SimFS.sys (SimFS.gen "/src/nope" "/dst") (SimFS.world SimFS.tree)
      ["a.txt", "d", "e"] (Error.errno os.ENOENT) (by decide) (by decide) (by decide)⟩

/-- C5 (witness): `/pipes/*` matches a file, a named pipe and a file; the copy
of the pipe fails and the third match is never entered. -/
theorem many_matches_abort_on_first_failure_witness :
    matchEntries (SimFS.gen "/pipes/*" "/dst").defFile.Source ["a", "b", "c"] [] =
        .ok (["/pipes/a"] ++ "/pipes/b" :: ["/pipes/c"]) ∧
      (Run SimFS.sys (SimFS.gen "/pipes/*" "/dst") (SimFS.world SimFS.tree)).1 =
        some (Error.Wrap (Error.Errorf "File type of %q not supported" ["/pipes/b"])
          "Failed to copy file(s)") ∧
      doCopyCalls (Run SimFS.sys (SimFS.gen "/pipes/*" "/dst")
        (SimFS.world SimFS.tree)).2.2.log = ["/pipes/a", "/pipes/b"] := by
  have h := many_matches_abort_on_first_failure SimFS.sys (SimFS.gen "/pipes/*" "/dst")
    (SimFS.world SimFS.tree)
    (copyEach SimFS.sys (destPathOf (SimFS.gen "/pipes/*" "/dst"))
      (withSeparator (SimFS.gen "/pipes/*" "/dst")).defFile ["/pipes/a"]
      (SimFS.world SimFS.tree)).2
    (doCopy SimFS.sys "/pipes/b" (destPathOf (SimFS.gen "/pipes/*" "/dst"))
      (withSeparator (SimFS.gen "/pipes/*" "/dst")).defFile
      (copyEach SimFS.sys (destPathOf (SimFS.gen "/pipes/*" "/dst"))
        (withSeparator (SimFS.gen "/pipes/*" "/dst")).defFile ["/pipes/a"]
        (SimFS.world SimFS.tree)).2).2
    ["a", "b", "c"] ["/pipes/a"] ["/pipes/c"] "/pipes/b"
    (Error.Errorf "File type of %q not supported" ["/pipes/b"])
    (by decide) (by decide) (by decide)
    (Prod.ext (by decide) rfl) (Prod.ext (by decide) rfl)
  refine ⟨by decide, ?_, ?_⟩
  · rw [h.1]
  · rw [h.1]
    exact h.2

/-- C6 (counterexample): a malformed pattern that `Run` does not report.
`/src/e/[` is malformed and the directory `/src/e` is listed as empty; `Run`
never looks at the pattern and fails on `Stat` of the literal path, with a
not-found error and not a pattern error.  The same happens with entries in the
listing: `/src/x*[` is malformed, the directory `/src` has three entries and
`filepath.Match` tells each of them apart at the `x`, before it reaches the
bracket. -/
theorem malformed_pattern_unreported_counterexample :
    Malformed "/src/e/[" ∧
      SimFS.sys.ReadDir SimFS.tree (filepath.Dir "/src/e/[") = .ok [] ∧
      (Run SimFS.sys (SimFS.gen "/src/e/[" "/dst") (SimFS.world SimFS.tree)).1 =
        some (Error.Wrapf (Error.errno os.ENOENT) "Failed to stat file %q" ["/src/e/["]) ∧
      (Run SimFS.sys (SimFS.gen "/src/e/[" "/dst") (SimFS.world SimFS.tree)).1 ≠
        some (Error.Wrap Error.ErrBadPattern "Failed to match pattern") ∧
      Malformed "/src/x*[" ∧
      SimFS.sys.ReadDir SimFS.tree (filepath.Dir "/src/x*[") = .ok ["a.txt", "d", "e"] ∧
      (Run SimFS.sys (SimFS.gen "/src/x*[" "/dst") (SimFS.world SimFS.tree)).1 =
        some (Error.Wrapf (Error.errno os.ENOENT) "Failed to stat file %q" ["/src/x*["]) :=
  ⟨⟨"/src/e/x", by decide⟩, by decide, by decide, by decide,
    ⟨"/src/x", by decide⟩, by decide, by decide⟩

/-- C6 (witness): the malformed pattern `/src/[` is rejected on the first entry
of `/src` and `Run` fails with the pattern error; the malformed pattern
`/src/x*[` is rejected on no entry of `/src` and `Run` reports no pattern
error. -/
theorem malformed_pattern_error_witness :
    SimFS.sys.ReadDir (SimFS.world SimFS.tree).fs
        (filepath.Dir (SimFS.gen "/src/[" "/dst").defFile.Source) = .ok ["a.txt", "d", "e"] ∧
      filepath.Match "/src/[" (filepath.Join [filepath.Dir "/src/[", "a.txt"]) =
        .error Error.ErrBadPattern ∧
      Run SimFS.sys (SimFS.gen "/src/[" "/dst") (SimFS.world SimFS.tree) =
        (some (Error.Wrap Error.ErrBadPattern "Failed to match pattern"),
          SimFS.gen "/src/[" "/dst", SimFS.world SimFS.tree) ∧
      (∀ n ∈ ["a.txt", "d", "e"],
        filepath.Match "/src/x*[" (filepath.Join [filepath.Dir "/src/x*[", n]) ≠
          .error Error.ErrBadPattern) ∧
      (Run SimFS.sys (SimFS.gen "/src/x*[" "/dst") (SimFS.world SimFS.tree)).1 ≠
        some (Error.Wrap Error.ErrBadPattern "Failed to match pattern") :=
  ⟨by decide, by decide,
    (malformed_pattern_error SimFS.sys (SimFS.gen "/src/[" "/dst") (SimFS.world SimFS.tree)
      ["a.txt", "d", "e"] (by decide)).1 ⟨"a.txt", by decide, by decide⟩,
    by decide,
    (malformed_pattern_error SimFS.sys (SimFS.gen "/src/x*[" "/dst") (SimFS.world SimFS.tree)
      ["a.txt", "d", "e"] (by decide)).2 (by decide) Error.ErrBadPattern⟩

/-- C7 (witness): the walk of `/src/d` meets the directory, a file and then a
named pipe. -/
theorem walk_skips_unsupported_witness :
    "/src/d/p" = walkPath "/src/d" ["p"] ∧
      (∀ n ∈ ["p"], validName n) ∧
      isUnsupported SimFS.pipeMode ∧
      walkVisits (walkFn SimFS.sys "/src/d" "/rootfs/dst" (SimFS.gen "/src/d" "/dst").defFile)
          (SimFS.sys.Walk (SimFS.world SimFS.tree).fs "/src/d")
          (((SimFS.world SimFS.tree).emit
            (Event.doCopy "/src/d" "/rootfs/dst" (SimFS.gen "/src/d" "/dst").defFile)).emit
            (Event.copyDir "/src/d" "/rootfs/dst")) =
        [⟨"/src/d", SimFS.dirMode, none⟩, ⟨"/src/d/f", SimFS.fileMode, none⟩] ++
          ⟨"/src/d/p", SimFS.pipeMode, none⟩ :: [] ∧
      (doCopy SimFS.sys "/src/d" "/rootfs/dst" (SimFS.gen "/src/d" "/dst").defFile
        (SimFS.world SimFS.tree)).1 = none :=
  ⟨by decide, by decide, by decide, by decide,
    congrArg Prod.fst
      (walk_skips_unsupported SimFS.sys "/src/d" "/rootfs/dst"
        (SimFS.gen "/src/d" "/dst").defFile
        [⟨"/src/d", SimFS.dirMode, none⟩, ⟨"/src/d/f", SimFS.fileMode, none⟩] []
        ⟨"/src/d/p", SimFS.pipeMode, none⟩ ["p"]
        (SimFS.world SimFS.tree)
        (walkAll (walkFn SimFS.sys "/src/d" "/rootfs/dst" (SimFS.gen "/src/d" "/dst").defFile)
          [⟨"/src/d", SimFS.dirMode, none⟩, ⟨"/src/d/f", SimFS.fileMode, none⟩]
          (((SimFS.world SimFS.tree).emit
            (Event.doCopy "/src/d" "/rootfs/dst" (SimFS.gen "/src/d" "/dst").defFile)).emit
            (Event.copyDir "/src/d" "/rootfs/dst"))).2
        ((walkAll (walkFn SimFS.sys "/src/d" "/rootfs/dst" (SimFS.gen "/src/d" "/dst").defFile)
          [⟨"/src/d", SimFS.dirMode, none⟩, ⟨"/src/d/f", SimFS.fileMode, none⟩]
          (((SimFS.world SimFS.tree).emit
            (Event.doCopy "/src/d" "/rootfs/dst" (SimFS.gen "/src/d" "/dst").defFile)).emit
            (Event.copyDir "/src/d" "/rootfs/dst"))).2.emit
          (Event.Printf "File type of %q not supported, skipping" ["/src/d/p"]))
        SimFS.dirMode rfl (by decide) (by decide) (by decide) (by decide) (by decide) (by decide)
        (Prod.ext (by decide) rfl) rfl).2.2.2⟩

/-- C8 (witness): the named pipe `/pipes/b` as the source. -/
theorem doCopy_unsupported_kind_witness :
    SimFS.sys.Stat (SimFS.world SimFS.tree).fs "/pipes/b" = .ok SimFS.pipeMode ∧
      isUnsupported SimFS.pipeMode ∧
      (doCopy SimFS.sys "/pipes/b" "/rootfs/dst" (SimFS.gen "/pipes/b" "/dst").defFile
          (SimFS.world SimFS.tree)).1 =
        some (Error.Errorf "File type of %q not supported" ["/pipes/b"]) :=
  ⟨by decide, by decide,
    (doCopy_unsupported_kind SimFS.sys "/pipes/b" "/rootfs/dst"
      (SimFS.gen "/pipes/b" "/dst").defFile (SimFS.world SimFS.tree) SimFS.pipeMode
      (by decide) (by decide)).1⟩

/-- C9 (witness): the walk of `/src/d` onto `/rootfs/dst` for a spec whose
destination path ends in a separator.  `copyDir` makes the directory
`/rootfs/dst`, copies `/src/d/f` to `/rootfs/dst/f` (not to a path with a
basename appended) and skips the pipe; the file node is placed at
`/rootfs/dst/f`; the directory node is made at `/rootfs/dst` by `MkdirAll`
alone. -/
theorem walk_mirrors_relative_path_witness :
    strings.HasSuffix (SimFS.gen "/src/d" "/dst/").defFile.Path "/" = true ∧
      outcome (SimFS.world SimFS.tree)
          (copyDir SimFS.sys "/src/d" "/rootfs/dst" (SimFS.gen "/src/d" "/dst/").defFile
            (SimFS.world SimFS.tree)) =
        ⟨true,
          SimFS.tree ++ [⟨"/rootfs/dst", os.ModeDir ||| os.ModePerm, ""⟩,
            ⟨"/rootfs/dst/f", SimFS.fileMode, ""⟩],
          [Event.MkdirAll "/rootfs/dst" os.ModePerm,
            Event.FileCopy "/src/d/f" "/rootfs/dst/f",
            Event.updateFileAccess "/rootfs/dst/f" (SimFS.gen "/src/d" "/dst/").defFile,
            Event.Printf "File type of %q not supported, skipping" ["/src/d/p"]]⟩ ∧
      filepath.Rel "/src/d" "/src/d/f" = .ok "f" ∧
      isRegularOrSymlink SimFS.fileMode ∧
      outcome (SimFS.world SimFS.tree)
          (walkFn SimFS.sys "/src/d" "/rootfs/dst" (SimFS.gen "/src/d" "/dst/").defFile
            ⟨"/src/d/f", SimFS.fileMode, none⟩ (SimFS.world SimFS.tree)) =
        ⟨true,
          SimFS.tree ++ [⟨"/rootfs/dst", os.ModeDir ||| os.ModePerm, ""⟩,
            ⟨"/rootfs/dst/f", SimFS.fileMode, ""⟩],
          [Event.MkdirAll "/rootfs/dst" os.ModePerm,
            Event.FileCopy "/src/d/f" "/rootfs/dst/f",
            Event.updateFileAccess "/rootfs/dst/f" (SimFS.gen "/src/d" "/dst/").defFile]⟩ ∧
      filepath.Rel "/src/d" "/src/d" = .ok "." ∧
      isDirectory SimFS.dirMode ∧
      outcome (SimFS.world SimFS.tree)
          (walkFn SimFS.sys "/src/d" "/rootfs/dst" (SimFS.gen "/src/d" "/dst/").defFile
            ⟨"/src/d", SimFS.dirMode, none⟩ (SimFS.world SimFS.tree)) =
        ⟨true, SimFS.tree ++ [⟨"/rootfs/dst", os.ModeDir ||| os.ModePerm, ""⟩],
          [Event.MkdirAll "/rootfs/dst" os.ModePerm]⟩ := by
  have h := walk_mirrors_relative_path SimFS.sys "/src/d" "/rootfs/dst"
    (SimFS.gen "/src/d" "/dst/").defFile (SimFS.world SimFS.tree)
  refine ⟨by decide, ?_, by decide, by decide, ?_, by decide, by decide, ?_⟩
  · rw [h.1]
    decide
  · rw [((h.2 ⟨"/src/d/f", SimFS.fileMode, none⟩ "f" (SimFS.world SimFS.tree) rfl
      (by decide)).1 (by decide)).1]
    decide
  · rw [(h.2 ⟨"/src/d", SimFS.dirMode, none⟩ "." (SimFS.world SimFS.tree) rfl
      (by decide)).2 (by decide)]
    decide

/-- C10 (counterexample): with an empty destination path and three matches,
the spec's destination path is `/` after `Run` and was empty before, and the
destination a second `Run` would compute is `/rootfs` where the first computed
`/rootfs/src/*`. -/
theorem rewrite_persists_counterexample :
    (SimFS.gen "/src/*" "").defFile.Path = "" ∧
      (Run SimFS.sys (SimFS.gen "/src/*" "") (SimFS.world SimFS.tree)).2.1.defFile.Path =
        "/" ∧
      destPathOf (SimFS.gen "/src/*" "") = "/rootfs/src/*" ∧
      destPathOf (Run SimFS.sys (SimFS.gen "/src/*" "") (SimFS.world SimFS.tree)).2.1 =
        "/rootfs" := by
  refine ⟨by decide, by decide, by decide, by decide⟩

/-- C10 (witness): the pattern `/src/*` with three matches. -/
theorem rewrite_is_stored_witness :
    matchEntries (SimFS.gen "/src/*" "/dst").defFile.Source ["a.txt", "d", "e"] [] =
        .ok ["/src/a.txt", "/src/d", "/src/e"] ∧
      (Run SimFS.sys (SimFS.gen "/src/*" "/dst") (SimFS.world SimFS.tree)).2.1 =
        (if 2 ≤ ["/src/a.txt", "/src/d", "/src/e"].length then
          withSeparator (SimFS.gen "/src/*" "/dst")
        else SimFS.gen "/src/*" "/dst") :=
  ⟨by decide,
    (rewrite_is_stored SimFS.sys (SimFS.gen "/src/*" "/dst") (SimFS.world SimFS.tree)
      ["a.txt", "d", "e"] ["/src/a.txt", "/src/d", "/src/e"] (by decide) (by decide)).1⟩

end Claims
